import Mathlib

/-!
Verification development for the `jsn` JSON codec (Go package `adnsv/jsn`).

The Go sources are shallowly embedded as follows:

* Go byte strings / `[]byte` buffers are `List Nat` (each entry one byte).
* The `Scanner` keeps an immutable buffer and a forward-moving cursor; we
  embed scanner operations as functions consuming a suffix of the input and
  returning the remaining suffix (the cursor position corresponds to the
  remaining suffix; backtracking inside `parseString` re-uses the saved
  suffix exactly like `s.cur = start` restores the cursor).
* `float64` values are embedded as the exact rational (`ℚ`) value of the
  binary64 number; `strconv.ParseFloat`'s correctly-rounded conversion is
  modelled by `roundF64` and `strconv.FormatFloat(_, 'g', prec, 64)` by
  `fmtG`, following the `strconv` decimal conversion algorithm.
* Fallible Go functions returning `(T, error)` become `Except JErr T` or
  pairs with `Option` errors, mirroring the source control flow branch by
  branch.
-/

set_option maxRecDepth 4096

namespace Jsn

/-- Error values of the scanner/reader (`scanner.go` var block).  The extra
`depthExceeded` value stands for the host stack overflow that unbounded
recursion in Go would hit; theorems always supply enough fuel so it never
occurs. -/
inductive JErr where
  | unexpectedToken
  | unexpectedEOF
  | invalidNumber
  | invalidString
  | invalidUnicodeEscape
  | numericValueOutOfRange
  | depthExceeded
deriving DecidableEq, Repr

/-- Strict JSON whitespace set used by `skipWhitespace` (scanner.go:107):
space, tab, LF, CR. -/
def isWs (b : Nat) : Bool :=
  b == 32 || b == 9 || b == 10 || b == 13

/-- `skipWhitespace` (scanner.go:107): advance the cursor over whitespace
bytes; on the suffix embedding this drops the maximal whitespace prefix. -/
def skipWs : List Nat → List Nat
  | [] => []
  | b :: bs => if isWs b then skipWs bs else b :: bs

/-- `IsEOF` (scanner.go:54): the scanner has consumed all input. -/
def isEOF (s : List Nat) : Bool := s.isEmpty

/-- `Finalize` (scanner.go:72): skip trailing whitespace, then require
end-of-input; any remaining byte is `ErrUnexpectedToken`.  `none` models the
`nil` error return. -/
def finalizeS (s : List Nat) : Option JErr :=
  if isEOF (skipWs s) then none else some .unexpectedToken

theorem skipWs_nil_iff (s : List Nat) :
    skipWs s = [] ↔ ∀ b ∈ s, isWs b = true := by
  induction s with
  | nil => simp [skipWs]
  | cons b bs ih =>
    by_cases hb : isWs b
    · simp [skipWs, hb, ih]
    · simp [skipWs, hb]

/-! ## Kernel-reducible rational arithmetic

The standard `Rat.mul`/`Rat.add`/`Rat.inv` do not reduce inside `decide`/`rfl`
proofs, while `Rat.divInt`, `Rat.neg`, `Rat.floor`, casts and comparisons do.
All model definitions therefore use the following helpers; the bridge lemmas
identify them with the ordinary field operations for use in proofs. -/

/-- Multiplication on `ℚ` via `divInt` (kernel-reducible). -/
def qmul (a b : ℚ) : ℚ := Rat.divInt (a.num * b.num) ((a.den : Int) * (b.den : Int))

/-- Addition on `ℚ` via `divInt` (kernel-reducible). -/
def qadd (a b : ℚ) : ℚ :=
  Rat.divInt (a.num * (b.den : Int) + b.num * (a.den : Int)) ((a.den : Int) * (b.den : Int))

/-- Subtraction on `ℚ` (kernel-reducible). -/
def qsub (a b : ℚ) : ℚ := qadd a (Rat.neg b)

/-- Inverse on `ℚ` via `divInt` (kernel-reducible). -/
def qinv (a : ℚ) : ℚ := Rat.divInt (a.den : Int) a.num

/-- Division on `ℚ` (kernel-reducible). -/
def qdiv (a b : ℚ) : ℚ := qmul a (qinv b)

/-- Absolute value on `ℚ` (kernel-reducible). -/
def qabs (a : ℚ) : ℚ := if a < 0 then Rat.neg a else a

/-- Fueled binary exponentiation on `Nat`: recursion depth `O(log e)`, so
that it reduces without deep nesting.  `natPowAux f b e = b ^ e` whenever
`e ≤ f`. -/
def natPowAux : Nat → Nat → Nat → Nat
  | 0, _, e => if e = 0 then 1 else 0
  | f + 1, b, e =>
    if e = 0 then 1
    else
      let h := natPowAux f b (e / 2)
      if e % 2 = 0 then h * h else h * h * b

/-- `b ^ e` by binary exponentiation (kernel-reducible at low depth). -/
def natPow (b e : Nat) : Nat := natPowAux e b e

theorem natPowAux_eq (f : Nat) : ∀ b e, e ≤ f → natPowAux f b e = b ^ e := by
  induction f with
  | zero =>
    intro b e he
    interval_cases e
    simp [natPowAux]
  | succ f ih =>
    intro b e he
    by_cases h0 : e = 0
    · simp [natPowAux, h0]
    · have h2 : e / 2 ≤ f := by omega
      have hrec := ih b (e / 2) h2
      by_cases hpar : e % 2 = 0
      · have : e = 2 * (e / 2) := by omega
        simp only [natPowAux, if_neg h0, hrec, if_pos hpar]
        rw [← pow_add]
        congr 1
        omega
      · have : e = 2 * (e / 2) + 1 := by omega
        simp only [natPowAux, if_neg h0, hrec, if_neg hpar]
        rw [← pow_add, ← pow_succ]
        congr 1
        omega

theorem natPow_eq (b e : Nat) : natPow b e = b ^ e :=
  natPowAux_eq e b e le_rfl

/-- `2 ^ z : ℚ` for `z : ℤ` (kernel-reducible). -/
def qpow2 (z : Int) : ℚ :=
  if 0 ≤ z then Rat.divInt ((natPow 2 z.toNat : Nat) : Int) 1
  else Rat.divInt 1 ((natPow 2 (-z).toNat : Nat) : Int)

/-- `10 ^ z : ℚ` for `z : ℤ` (kernel-reducible). -/
def qpow10 (z : Int) : ℚ :=
  if 0 ≤ z then Rat.divInt ((natPow 10 z.toNat : Nat) : Int) 1
  else Rat.divInt 1 ((natPow 10 (-z).toNat : Nat) : Int)

theorem qmul_eq (a b : ℚ) : qmul a b = a * b := by
  conv_rhs => rw [← Rat.num_div_den a, ← Rat.num_div_den b]
  rw [qmul, Rat.divInt_eq_div, div_mul_div_comm]
  push_cast
  ring_nf

theorem qadd_eq (a b : ℚ) : qadd a b = a + b := by
  have hb : ((b.den : ℚ)) ≠ 0 := by exact_mod_cast b.den_nz
  have ha : ((a.den : ℚ)) ≠ 0 := by exact_mod_cast a.den_nz
  conv_rhs => rw [← Rat.num_div_den a, ← Rat.num_div_den b]
  rw [qadd, Rat.divInt_eq_div, div_add_div _ _ ha hb]
  push_cast
  ring_nf

theorem ratNeg_eq (a : ℚ) : Rat.neg a = -a := rfl

theorem qsub_eq (a b : ℚ) : qsub a b = a - b := by
  rw [qsub, ratNeg_eq, qadd_eq, sub_eq_add_neg]

theorem qinv_eq (a : ℚ) : qinv a = a⁻¹ := by
  rw [qinv, Rat.inv_def']

theorem qdiv_eq (a b : ℚ) : qdiv a b = a / b := by
  rw [qdiv, qmul_eq, qinv_eq, div_eq_mul_inv]

theorem qabs_eq (a : ℚ) : qabs a = |a| := by
  rw [qabs]
  by_cases h : a < 0
  · rw [if_pos h, ratNeg_eq, abs_of_neg h]
  · rw [if_neg h, abs_of_nonneg (le_of_not_lt h)]

theorem qpow2_eq (z : Int) : qpow2 z = (2 : ℚ) ^ z := by
  rw [qpow2]
  by_cases h : 0 ≤ z
  · rw [if_pos h, Rat.divInt_eq_div, natPow_eq]
    push_cast
    rw [← zpow_natCast, Int.toNat_of_nonneg h, div_one]
  · rw [if_neg h, Rat.divInt_eq_div, natPow_eq]
    push_cast
    rw [← zpow_natCast, Int.toNat_of_nonneg (by omega : (0:Int) ≤ -z), one_div,
      ← zpow_neg, neg_neg]

theorem qpow10_eq (z : Int) : qpow10 z = (10 : ℚ) ^ z := by
  rw [qpow10]
  by_cases h : 0 ≤ z
  · rw [if_pos h, Rat.divInt_eq_div, natPow_eq]
    push_cast
    rw [← zpow_natCast, Int.toNat_of_nonneg h, div_one]
  · rw [if_neg h, Rat.divInt_eq_div, natPow_eq]
    push_cast
    rw [← zpow_natCast, Int.toNat_of_nonneg (by omega : (0:Int) ≤ -z), one_div,
      ← zpow_neg, neg_neg]

theorem ratFloor_eq (q : ℚ) : Rat.floor q = ⌊q⌋ :=
  (Rat.floor_def' q).trans Rat.floor_def.symm

/-- Binary search step for `natLog2`: maintains `2^lo ≤ n < 2^hi` and
narrows until `hi = lo + 1`. -/
def log2BS : Nat → Nat → Nat → Nat → Nat
  | 0, _, lo, _ => lo
  | f + 1, n, lo, hi =>
    if lo + 1 < hi then
      let mid := (lo + hi) / 2
      if natPow 2 mid ≤ n then log2BS f n mid hi else log2BS f n lo mid
    else lo

/-- Doubling search for an upper bound `h` with `n < 2^h`. -/
def log2Hi : Nat → Nat → Nat → Nat
  | 0, _, h => h
  | f + 1, n, h => if n < natPow 2 h then h else log2Hi f n (h * 2)

/-- `⌊log₂ n⌋` for `n ≥ 1` (`0` for `n = 0`), computed with logarithmic
recursion depth so that it kernel-reduces on very large literals. -/
def natLog2 (n : Nat) : Nat :=
  if n = 0 then 0 else log2BS 64 n 0 (log2Hi 64 n 1)

/-- Largest `e : ℤ` with `2^e ≤ q`, for `q > 0` (unspecified otherwise). -/
def floorLog2 (q : ℚ) : Int :=
  if 1 ≤ q then
    (natLog2 (Int.toNat (Rat.floor q)) : Int)
  else
    let k : Int := (natLog2 (Int.toNat (Rat.floor (qinv q))) : Int)
    if qpow2 (-k) ≤ q then -k else -k - 1

/-- Nearest integer to `q`, ties to even. -/
def roundHalfEven (q : ℚ) : Int :=
  let f := Rat.floor q
  let r := qsub q ((f : ℚ))
  if r < mkRat 1 2 then f
  else if mkRat 1 2 < r then f + 1
  else if f % 2 = 0 then f else f + 1

/-- Correctly rounded conversion of an exact rational to the binary64 grid
(round to nearest, ties to even); `none` models overflow to ±Inf
(`strconv.ErrRange`).  Underflow rounds to zero silently, as in Go. -/
def roundF64 (q : ℚ) : Option ℚ :=
  if q = 0 then some 0
  else
    let a := qabs q
    let e := floorLog2 a
    let p := max (e - 52) (-1074)
    let m := roundHalfEven (qdiv a (qpow2 p))
    let r := qmul ((m : ℚ)) (qpow2 p)
    if qpow2 1024 ≤ r then none
    else some (if q < 0 then Rat.neg r else r)

/-- `q` is (the exact value of) a finite binary64 number. -/
def isF64 (q : ℚ) : Prop := roundF64 q = some q

instance (q : ℚ) : Decidable (isF64 q) := by
  unfold isF64; infer_instance

/-! ## Scanner byte primitives (scanner.go) -/

/-- ASCII decimal digit test (scanner.go:119 `isDecimalDigit` on one byte). -/
def isDigitByte (b : Nat) : Bool := 48 ≤ b && b ≤ 57

/-- `skipByte` (scanner.go:96): consume byte `b` if it is next. -/
def skipByteS (b : Nat) (s : List Nat) : Bool × List Nat :=
  match s with
  | [] => (false, [])
  | c :: cs => if c = b then (true, cs) else (false, c :: cs)

/-- `isDecimalDigit` (scanner.go:119) at the current position. -/
def isDecimalDigitS : List Nat → Bool
  | [] => false
  | c :: _ => isDigitByte c

/-- Cursor advance of `skipDecimalDigits` (scanner.go:123). -/
def dropDigits : List Nat → List Nat
  | [] => []
  | c :: cs => if isDigitByte c then dropDigits cs else c :: cs

/-- `skipDecimalDigits` (scanner.go:123): the progress flag `cur > startPos`
holds iff the first byte was a digit. -/
def skipDigitsS (s : List Nat) : Bool × List Nat :=
  (isDecimalDigitS s, dropDigits s)

/-! ## Number scanning (`parseNumber`, scanner.go:246) -/

/-- Result of the modelled `strconv.ParseFloat`. -/
inductive FloatParse where
  | syntaxErr
  | rangeErr
  | val (q : ℚ)
deriving DecidableEq, Repr

/-- Digit-run split: maximal leading run of ASCII digits and the rest. -/
def digitRun : List Nat → List Nat × List Nat
  | [] => ([], [])
  | b :: bs =>
    if isDigitByte b then
      let p := digitRun bs
      (b :: p.1, p.2)
    else ([], b :: bs)

/-- Value of a most-significant-first ASCII digit run. -/
def digitsToNat (ds : List Nat) : Nat :=
  ds.foldl (fun acc b => acc * 10 + (b - 48)) 0

/- Model of `strconv.ParseFloat(lit, 64)` for the decimal literals the JSON
number grammar can produce: the literal's exact decimal value, correctly
rounded to binary64 (`roundF64`); overflow is `rangeErr` (`ErrRange`).
`ParseFloat` accepts a superset of the JSON grammar (e.g. `1.`, `.5`, `inf`,
hex floats); those extra forms can never be handed to it by `parseNumber`,
so the model reports `syntaxErr` for them (and for anything non-numeric). -/
/-- Rounding step shared by the final stage: correctly round the exact
decimal value, `ErrRange` on overflow. -/
def gpfRound (q : ℚ) : FloatParse :=
  match roundF64 q with
  | none => .rangeErr
  | some v => .val v

/-- Final stage of the modelled `ParseFloat`: the whole literal must be
consumed, then the exact decimal value `±(int frac digits)·10^(e − #frac)`
is correctly rounded; overflow is the range error. -/
def gpfFinish (neg : Bool) (ids fds : List Nat) (ev : Int) (s4 : List Nat) :
    FloatParse :=
  if s4.isEmpty then
    let mant : ℚ := (digitsToNat (ids ++ fds) : ℚ)
    let q : ℚ := qmul mant (qpow10 (ev - (fds.length : Int)))
    gpfRound (if neg then Rat.neg q else q)
  else .syntaxErr

/-- Optional exponent sign: minus sets the negation flag, plus is skipped,
anything else is left in place. -/
def expSign : List Nat → Bool × List Nat
  | [] => (false, [])
  | c2 :: ds =>
    if c2 = 45 then (true, ds)
    else if c2 = 43 then (false, ds)
    else (false, c2 :: ds)

/-- Exponent stage of the modelled `ParseFloat`: optional `e`/`E`, optional
sign, at least one digit. -/
def gpfExp (neg : Bool) (ids fds : List Nat) (s3 : List Nat) : FloatParse :=
  match s3 with
  | [] => gpfFinish neg ids fds 0 []
  | c :: cs =>
    if c = 101 ∨ c = 69 then
      let esign := expSign cs
      let p3 := digitRun esign.2
      if p3.1.isEmpty then .syntaxErr
      else
        gpfFinish neg ids fds
          (if esign.1 then -(digitsToNat p3.1 : Int) else (digitsToNat p3.1 : Int))
          p3.2
    else gpfFinish neg ids fds 0 (c :: cs)

/-- Fraction stage of the modelled `ParseFloat`: optional `.` with at least
one digit. -/
def gpfFrac (neg : Bool) (ids : List Nat) (s2 : List Nat) : FloatParse :=
  match s2 with
  | [] => gpfExp neg ids [] []
  | c :: cs =>
    if c = 46 then
      let p2 := digitRun cs
      if p2.1.isEmpty then .syntaxErr else gpfExp neg ids p2.1 p2.2
    else gpfExp neg ids [] (c :: cs)

/-- Mantissa stage of the modelled `ParseFloat`: at least one integer
digit.  (`ParseFloat` itself also accepts `.5`-style literals; the JSON
grammar never hands one over, so the model rejects them.) -/
def goParseFloatCore (neg : Bool) (s1 : List Nat) : FloatParse :=
  let p1 := digitRun s1
  if p1.1.isEmpty then .syntaxErr else gpfFrac neg p1.1 p1.2

def goParseFloat (s : List Nat) : FloatParse :=
  match s with
  | [] => goParseFloatCore false []
  | c :: bs =>
    if c = 45 then goParseFloatCore true bs
    else if c = 43 then goParseFloatCore false bs
    else goParseFloatCore false (c :: bs)

/-- Exponent tail of the number grammar (scanner.go:277-288). -/
def expTail (s6 : List Nat) : Option (List Nat) :=
  let s7 :=
    match skipByteS 43 s6 with
    | (true, t) => t
    | (false, _) => (skipByteS 45 s6).2
  match skipDigitsS s7 with
  | (false, _) => none
  | (true, s8) =>
    match skipByteS 101 s8 with
    | (true, _) => none
    | (false, _) =>
      match skipByteS 69 s8 with
      | (true, _) => none
      | (false, _) => some s8

/-- Integer part of the number grammar (scanner.go:252-263): a single `0`
not followed by a digit, or a nonzero digit followed by a digit run. -/
def intPartG (s1 : List Nat) : Option (List Nat) :=
  match skipByteS 48 s1 with
  | (true, s2) => if isDecimalDigitS s2 then none else some s2
  | (false, _) =>
    match s1 with
    | c :: cs => if 49 ≤ c ∧ c ≤ 57 then some (dropDigits cs) else none
    | [] => none

/-- Fractional part of the number grammar (scanner.go:265-274): an optional
`.` requiring at least one digit, with a second `.` rejected. -/
def fracPartG (s2 : List Nat) : Option (List Nat) :=
  match skipByteS 46 s2 with
  | (true, s3) =>
    match skipDigitsS s3 with
    | (false, _) => none
    | (true, s4) =>
      match skipByteS 46 s4 with
      | (true, _) => none
      | (false, s5) => some s5
  | (false, _) => some s2

/-- Exponent part of the number grammar (scanner.go:276-288): an optional
`e`/`E` with `expTail`. -/
def expPartG (s5 : List Nat) : Option (List Nat) :=
  match skipByteS 101 s5 with
  | (true, s6) => expTail s6
  | (false, _) =>
    match skipByteS 69 s5 with
    | (true, s6) => expTail s6
    | (false, _) => some s5

/-- Grammar validation pass of `parseNumber` (scanner.go:246-288): optional
minus, integer part, fractional part, exponent part; returns the remaining
suffix after the consumed literal, `none` on `ErrInvalidNumber`. -/
def numGrammar (s : List Nat) : Option (List Nat) :=
  match intPartG (skipByteS 45 s).2 with
  | none => none
  | some s2 =>
    match fracPartG s2 with
    | none => none
    | some s5 => expPartG s5

/-- `parseNumber` (scanner.go:246): validate the grammar, then hand the
consumed substring `data[start:cur]` to `strconv.ParseFloat`; an `ErrRange`
from it becomes `ErrNumericValueOutOfRange`, any other failure
`ErrInvalidNumber`. -/
def parseNumber (s : List Nat) : Except JErr (ℚ × List Nat) :=
  match numGrammar s with
  | none => .error .invalidNumber
  | some rest =>
    let lit := s.take (s.length - rest.length)
    match goParseFloat lit with
    | .syntaxErr => .error .invalidNumber
    | .rangeErr => .error .numericValueOutOfRange
    | .val q => .ok (q, rest)

/-! ## String scanning (`parseString` / `parseUnicode`, scanner.go:144-244) -/

/-- Value of one ASCII hex digit, as accepted by `strconv.ParseUint(_, 16, _)`. -/
def hexVal (b : Nat) : Option Nat :=
  if 48 ≤ b ∧ b ≤ 57 then some (b - 48)
  else if 97 ≤ b ∧ b ≤ 102 then some (b - 87)
  else if 65 ≤ b ∧ b ≤ 70 then some (b - 55)
  else none

/-- `parseUnicode` (scanner.go:230): consume exactly 4 bytes, parse them as a
16-bit hex value (`strconv.ParseUint(hex, 16, 16)`); the result is the code
unit as a Go `rune`. -/
def parseUnicode (s : List Nat) : Except JErr (Nat × List Nat) :=
  match s with
  | h1 :: h2 :: h3 :: h4 :: rest =>
    match hexVal h1, hexVal h2, hexVal h3, hexVal h4 with
    | some a, some b, some c, some d => .ok (((a * 16 + b) * 16 + c) * 16 + d, rest)
    | _, _, _, _ => .error .invalidUnicodeEscape
  | _ => .error .invalidUnicodeEscape

/-- Go's `string(r)` conversion for a rune `r`: UTF-8 encoding, with any
surrogate value (and any value above `0x10FFFF`) replaced by U+FFFD
(`EF BF BD`).  `parseUnicode` only produces `r ≤ 0xFFFF`. -/
def utf8Encode (r : Nat) : List Nat :=
  if r < 0x80 then [r]
  else if r < 0x800 then [0xC0 + r / 64, 0x80 + r % 64]
  else if 0xD800 ≤ r ∧ r < 0xE000 then [0xEF, 0xBF, 0xBD]
  else if r < 0x10000 then [0xE0 + r / 4096, 0x80 + r / 64 % 64, 0x80 + r % 64]
  else if r ≤ 0x10FFFF then
    [0xF0 + r / 262144, 0x80 + r / 4096 % 64, 0x80 + r / 64 % 64, 0x80 + r % 64]
  else [0xEF, 0xBF, 0xBD]

theorem parseUnicode_length {s rest : List Nat} {r : Nat}
    (h : parseUnicode s = .ok (r, rest)) : rest.length + 4 = s.length := by
  match s with
  | [] => simp [parseUnicode] at h
  | [_] => simp [parseUnicode] at h
  | [_, _] => simp [parseUnicode] at h
  | [_, _, _] => simp [parseUnicode] at h
  | h1 :: h2 :: h3 :: h4 :: t =>
    simp only [parseUnicode] at h
    rcases e1 : hexVal h1 with _ | a <;> rcases e2 : hexVal h2 with _ | b <;>
      rcases e3 : hexVal h3 with _ | c <;> rcases e4 : hexVal h4 with _ | d <;>
      simp [e1, e2, e3, e4] at h
    obtain ⟨-, h2⟩ := h
    simp [← h2, List.length_cons]

/-- Result of the fast (escape-free) scan of `parseString` (scanner.go:154). -/
inductive FastRes where
  | found (str rest : List Nat)
  | escaped
  | invalid
deriving DecidableEq, Repr

/-- Fast path of `parseString` (scanner.go:154-176): linear scan for the
closing quote; a raw control byte or missing quote is `ErrInvalidString`
(`invalid`), a backslash aborts to the slow path (`escaped`). -/
def fastScan : List Nat → FastRes
  | [] => .invalid
  | c :: cs =>
    if c ≤ 0x1F then .invalid
    else if c = 92 then .escaped
    else if c = 34 then .found [] cs
    else
      match fastScan cs with
      | .found str rest => .found (c :: str) rest
      | r => r

/-- Slow (escape-aware) path of `parseString` (scanner.go:178-227), restarted
from just after the opening quote; `buf` is the accumulated output.  In the
`\u` case the four escape bytes are destructured before calling
`parseUnicode` (which consumes exactly those four bytes) so that the
recursion is structural; fewer than four remaining bytes is the
`parseUnicode` length check failing. -/
def slowPath (s : List Nat) (buf : List Nat) : Except JErr (List Nat × List Nat) :=
  match s with
  | [] => .error .invalidString
  | c :: cs =>
    if c = 0 then .error .invalidString
    else if c ≤ 0x1F then .error .invalidString
    else if c = 34 then .ok (buf, cs)
    else if c = 92 then
      match cs with
      | [] => .error .invalidString
      | e :: es =>
        if e = 34 ∨ e = 92 ∨ e = 47 then slowPath es (buf ++ [e])
        else if e = 98 then slowPath es (buf ++ [8])
        else if e = 102 then slowPath es (buf ++ [12])
        else if e = 110 then slowPath es (buf ++ [10])
        else if e = 114 then slowPath es (buf ++ [13])
        else if e = 116 then slowPath es (buf ++ [9])
        else if e = 117 then
          match es with
          | h1 :: h2 :: h3 :: h4 :: es2 =>
            match parseUnicode [h1, h2, h3, h4] with
            | .error err => .error err
            | .ok (r, _) => slowPath es2 (buf ++ utf8Encode r)
          | _ => .error .invalidUnicodeEscape
        else .error .invalidString
    else slowPath cs (buf ++ [c])

/-- `parseString` (scanner.go:144): expect an opening quote, try the fast
path, and restart with the slow path when an escape was found. -/
def parseString (s : List Nat) : Except JErr (List Nat × List Nat) :=
  match s with
  | 34 :: rest =>
    match fastScan rest with
    | .found str r2 => .ok (str, r2)
    | .invalid => .error .invalidString
    | .escaped => slowPath rest []
  | _ => .error .unexpectedToken

/-- `skipSequence` (scanner.go:131): consume `seq` exactly, or nothing. -/
def skipSeq (seq : List Nat) (s : List Nat) : Bool × List Nat :=
  if seq.isPrefixOf s then (true, s.drop seq.length) else (false, s)

/-! ## Value reader (`ReadValue`, reader.go:91) -/

/-- Dynamic JSON value produced by `ReadValue` (reader.go:80-90): `nil`,
`bool`, `float64`, `string`, `[]any`, `map[string]any`.  The Go map is
represented by an association list in insertion order; `mapInsert` below
models map assignment (last write wins). -/
inductive JValue where
  | null
  | bool (b : Bool)
  | num (q : ℚ)
  | str (s : List Nat)
  | arr (elems : List JValue)
  | obj (fields : List (List Nat × JValue))

/-- Go map assignment `m[key] = val`: overwrite the existing binding for
`key`, else append a new one. -/
def mapInsert (m : List (List Nat × JValue)) (k : List Nat) (v : JValue) :
    List (List Nat × JValue) :=
  match m with
  | [] => [(k, v)]
  | (k2, v2) :: rest => if k2 = k then (k, v) :: rest else (k2, v2) :: mapInsert rest k v

/-- Go map lookup `m[key]`. -/
def lookupKey (k : List Nat) : List (List Nat × JValue) → Option JValue
  | [] => none
  | (k2, v) :: rest => if k2 = k then some v else lookupKey k rest

/-- The three mutually recursive control points inside `ReadValue`
(reader.go:91): the dispatch itself, the object member loop and the array
element loop.  A single tagged function keeps the recursion structural in
the fuel. -/
inductive RCall where
  | val (s : List Nat)
  | members (m : List (List Nat × JValue)) (s : List Nat)
  | elems (acc : List JValue) (s : List Nat)

/-- `ReadValue` (reader.go:91) together with its two inner loops: one-token
lookahead recursive descent.  The `fuel` argument bounds the recursion (the
Go code recurses on the host stack and each level/iteration consumes at
least one byte); every theorem supplies enough fuel. -/
def readGo : Nat → RCall → Except JErr (JValue × List Nat)
  | 0, _ => .error .depthExceeded
  | fuel + 1, .val s0 =>
    let s := skipWs s0
    match s with
    | [] => .error .unexpectedEOF
    | c :: cs =>
      if c = 123 then
        let s1 := skipWs cs
        match skipByteS 125 s1 with
        | (true, s2) => .ok (.obj [], s2)
        | (false, _) => readGo fuel (.members [] s1)
      else if c = 91 then
        let s1 := skipWs cs
        match skipByteS 93 s1 with
        | (true, s2) => .ok (.arr [], s2)
        | (false, _) => readGo fuel (.elems [] s1)
      else if c = 34 then
        match parseString s with
        | .error e => .error e
        | .ok (str, r) => .ok (.str str, r)
      else if c = 116 then
        match skipSeq [116, 114, 117, 101] s with
        | (true, r) => .ok (.bool true, r)
        | (false, _) => .error .unexpectedToken
      else if c = 102 then
        match skipSeq [102, 97, 108, 115, 101] s with
        | (true, r) => .ok (.bool false, r)
        | (false, _) => .error .unexpectedToken
      else if c = 110 then
        match skipSeq [110, 117, 108, 108] s with
        | (true, r) => .ok (.null, r)
        | (false, _) => .error .unexpectedToken
      else if c = 45 ∨ isDigitByte c then
        match parseNumber s with
        | .error e => .error e
        | .ok (q, r) => .ok (.num q, r)
      else .error .unexpectedToken
  | fuel + 1, .members m s =>
    let s1 := skipWs s
    if s1.isEmpty then .error .unexpectedEOF
    else
      match parseString s1 with
      | .error e => .error e
      | .ok (key, s2) =>
        let s3 := skipWs s2
        if s3.isEmpty then .error .unexpectedEOF
        else
          match skipByteS 58 s3 with
          | (false, _) => .error .unexpectedToken
          | (true, s4) =>
            match readGo fuel (.val s4) with
            | .error e => .error e
            | .ok (v, s5) =>
              let m2 := mapInsert m key v
              let s6 := skipWs s5
              if s6.isEmpty then .error .unexpectedEOF
              else
                match skipByteS 125 s6 with
                | (true, s7) => .ok (.obj m2, s7)
                | (false, _) =>
                  match skipByteS 44 s6 with
                  | (true, s7) => readGo fuel (.members m2 s7)
                  | (false, _) => .error .unexpectedToken
  | fuel + 1, .elems acc s =>
    if s.isEmpty then .error .unexpectedEOF
    else
      match readGo fuel (.val s) with
      | .error e => .error e
      | .ok (v, s1) =>
        let acc2 := acc ++ [v]
        let s2 := skipWs s1
        if s2.isEmpty then .error .unexpectedEOF
        else
          match skipByteS 93 s2 with
          | (true, s3) => .ok (.arr acc2, s3)
          | (false, _) =>
            match skipByteS 44 s2 with
            | (true, s3) => readGo fuel (.elems acc2 (skipWs s3))
            | (false, _) => .error .unexpectedToken

/-- `ReadValue` (reader.go:91), entry point. -/
def readValue (fuel : Nat) (s : List Nat) : Except JErr (JValue × List Nat) :=
  readGo fuel (.val s)

/-- `SkipBOM` (scanner.go:59): drop a UTF-8 byte order mark if present. -/
def skipBOM (s : List Nat) : List Nat :=
  match s with
  | 0xEF :: 0xBB :: 0xBF :: rest => rest
  | _ => s

/-- `NewScanner` with default options (scanner.go:34): skip the BOM and
initial whitespace. -/
def newScanner (s : List Nat) : List Nat := skipWs (skipBOM s)

/-- `NewScanner` followed by `ReadValue`, with enough fuel for any input of
this length (each recursion level consumes at least one byte). -/
def readValueDoc (bytes : List Nat) : Except JErr (JValue × List Nat) :=
  readValue (bytes.length + 1) (newScanner bytes)

/-! ## Float formatting (model of `strconv.FormatFloat(v, 'g', prec, 64)`)

`FormatFloat` converts the binary64 value to its exact decimal digit string
(`decimal.Assign`/`Shift`), rounds it to `prec` significant digits
(`decimal.Round`, exact half-to-even since the decimal is exact), and then
renders it in `%e` or `%f` form according to the `'g'` rules (`ftoa.go`).
The decimal is represented as in `strconv`: significant digits with no
trailing zeros, plus a decimal-point position `dp` (value `= 0.d₁…dₙ·10^dp`).
-/

/-- Fueled base-10 digit extraction, least-significant first; exact whenever
`n ≤ fuel`. -/
def natDigitsLE : Nat → Nat → List Nat
  | 0, _ => []
  | f + 1, n => if n = 0 then [] else n % 10 :: natDigitsLE f (n / 10)

/-- Base-10 digits of `n`, most-significant first (`[]` for `0`). -/
def natDigits (n : Nat) : List Nat := (natDigitsLE n n).reverse

/-- Drop trailing zero digits (the `strconv` decimal keeps none). -/
def stripTrailingZeros (ds : List Nat) : List Nat :=
  (ds.reverse.dropWhile (fun d => d == 0)).reverse

/-- Numeric value of a most-significant-first digit list. -/
def digitsVal (ds : List Nat) : Nat :=
  ds.foldl (fun a d => a * 10 + d) 0

/-- `strconv` decimal representation: value `= 0.d₁…dₙ × 10^dp`. -/
structure DecRep where
  digits : List Nat
  dp : Int
deriving DecidableEq, Repr

/-- Exact decimal conversion of a nonnegative rational whose denominator is a
power of two (any finite binary64 magnitude): `q = num/2^a = num·5^a/10^a`
(`decimal.Assign` + `Shift` in `strconv`). -/
def assignDec (q : ℚ) : DecRep :=
  let a := natLog2 q.den
  let n := Int.natAbs q.num * natPow 5 a
  let ds := natDigits n
  { digits := stripTrailingZeros ds, dp := (ds.length : Int) - (a : Int) }

/-- `decimal.shouldRoundUp` (strconv/decimal.go) for an exact decimal: keep
`nd` digits; a lone `5` exactly halfway rounds to even. -/
def shouldRoundUp (ds : List Nat) (nd : Nat) : Bool :=
  match ds.drop nd with
  | [] => false
  | d :: rest =>
    if d = 5 ∧ rest.isEmpty then
      decide (0 < nd) && decide ((ds.getD (nd - 1) 0) % 2 = 1)
    else decide (5 ≤ d)

/-- `decimal.Round` (strconv/decimal.go): round to at most `prec` significant
digits; a carry across all digits bumps `dp` (`999… → 1`). -/
def roundDec (prec : Nat) (d : DecRep) : DecRep :=
  if d.digits.length ≤ prec then d
  else if shouldRoundUp d.digits prec then
    let v := digitsVal (d.digits.take prec) + 1
    if v = natPow 10 prec then { digits := [1], dp := d.dp + 1 }
    else { digits := stripTrailingZeros (natDigits v), dp := d.dp }
  else { digits := stripTrailingZeros (d.digits.take prec), dp := d.dp }

/-- ASCII byte of the digit `d`. -/
def fmtDigit (d : Nat) : Nat := 48 + d

/-- Exponent field of `%e` (`fmtE` in ftoa.go): sign, then two or three
digits. -/
def expDigits (e : Nat) : List Nat :=
  if e < 10 then [48, fmtDigit e]
  else if e < 100 then [fmtDigit (e / 10), fmtDigit (e % 10)]
  else [fmtDigit (e / 100), fmtDigit (e / 10 % 10), fmtDigit (e % 10)]

/-- `fmtE` (ftoa.go): `d.dddd e ± XX` with `prec` digits after the point
(zero-padded if the decimal has fewer). -/
def fmtE (neg : Bool) (d : DecRep) (prec : Nat) : List Nat :=
  let fr0 := (d.digits.drop 1).take prec
  let frac := fr0 ++ List.replicate (prec - fr0.length) 0
  let expv : Int := if d.digits.isEmpty then 0 else d.dp - 1
  (if neg then [45] else []) ++
  [fmtDigit (d.digits.headD 0)] ++
  (if 0 < prec then [46] ++ frac.map fmtDigit else []) ++
  [101, if expv < 0 then 45 else 43] ++
  expDigits (Int.natAbs expv)

/-- `fmtF` (ftoa.go): integer part (zero-padded as needed), then `prec`
fraction digits. -/
def fmtF (neg : Bool) (d : DecRep) (prec : Nat) : List Nat :=
  (if neg then [45] else []) ++
  (if 0 < d.dp then
    let m := min d.digits.length d.dp.toNat
    (d.digits.take m).map fmtDigit ++ List.replicate (d.dp.toNat - m) 48
  else [48]) ++
  (if 0 < prec then
    [46] ++ (List.range prec).map (fun i =>
      let j : Int := d.dp + (i : Int)
      if 0 ≤ j ∧ j < (d.digits.length : Int) then fmtDigit (d.digits.getD j.toNat 0)
      else 48)
  else [])

/-- `strconv.FormatFloat(v, 'g', prec, 64)` for finite `v` (ftoa.go `'g'`
case, `prec ≥ 0`): round to `prec` significant digits (a zero precision is
treated as one), then choose `%e` for decimal exponent `< -4` or `≥ eprec`,
else `%f`, clamping the digit count to the significant digits present. -/
def fmtG (precIn : Nat) (q : ℚ) : List Nat :=
  let neg := q < 0
  let prec0 := if precIn = 0 then 1 else precIn
  let d := roundDec prec0 (assignDec (qabs q))
  let nd : Int := (d.digits.length : Int)
  let eprec : Int := if (prec0 : Int) > nd ∧ nd ≥ d.dp then nd else (prec0 : Int)
  let exp := d.dp - 1
  let prec1 := min prec0 d.digits.length
  if exp < -4 ∨ exp ≥ eprec then fmtE neg d (prec1 - 1)
  else fmtF neg d (Int.toNat ((prec1 : Int) - d.dp))

/-! ## String escaping (`scrambleStr`, decorator.go:342) -/

/-- The escape replacement `scrambleStr` performs for one byte, if any: the
`switch cp` of decorator.go:358-391, including the byte arithmetic that
builds `\u00XX` with lowercase hex (`'a' - ':' = 39`). -/
def escapeOf (cp : Nat) : Option (List Nat) :=
  if cp = 8 then some [92, 98]
  else if cp = 12 then some [92, 102]
  else if cp = 10 then some [92, 110]
  else if cp = 13 then some [92, 114]
  else if cp = 9 then some [92, 116]
  else if cp = 92 then some [92, 92]
  else if cp = 34 then some [92, 34]
  else if cp ≤ 0x0f then
    some [92, 117, 48, 48, 48, 48 + cp + (if 0x0a ≤ cp then 39 else 0)]
  else if cp ≤ 0x1f then
    some [92, 117, 48, 48, 49, 48 + (cp - 16) + (if 0x1a ≤ cp then 39 else 0)]
  else none

/-- `s[b:c]` (Go slice of the string being scrambled). -/
def sliceBC (s : List Nat) (b c : Nat) : List Nat := (s.drop b).take (c - b)

/-- Body of `scrambleStr` (decorator.go:346-396): cursor `c` scans left to
right, `b` marks the start of the pending unescaped run; `replace` flushes
`s[b:c]`, emits the escape, and restarts the run.  The fuel equals
`s.length - c` at every call (structural so that it reduces); at the end the
pending run is flushed if nonempty. -/
def scrambleAux (s : List Nat) : Nat → Nat → Nat → List Nat
  | b, c, 0 => if c ≠ b then sliceBC s b c else []
  | b, c, fuel + 1 =>
    match escapeOf (s.getD c 0) with
    | some w => sliceBC s b c ++ w ++ scrambleAux s (c + 1) (c + 1) fuel
    | none => scrambleAux s b (c + 1) fuel

/-- `scrambleStr` (decorator.go:342): empty strings return immediately. -/
def scrambleStr (s : List Nat) : List Nat :=
  if s.isEmpty then [] else scrambleAux s 0 0 s.length

/-! ## Value marshaling engine (`marshalValue`, decorator.go:136) -/

/-- Encode-side error values: `UnsupportedTypeError`, the non-finite-float
error of `marshalFloat64`, the invalid-precision error of
`parseMarshalOptions`, and opaque error values (distinguished by a code)
produced by custom marshalers / callbacks / failing output sinks. -/
inductive MErr where
  | unsupportedType (tyName : List Nat)
  | unsupportedFloat
  | invalidPrecision (p : Int)
  | sinkError (code : Nat)
  | callbackError (code : Nat)
  | depthExceeded
deriving DecidableEq, Repr

/-- Go values in the fragment of `marshalValue`'s dispatch the claims are
about: nil interfaces, typed nil pointers, pointer indirections, booleans,
integer kinds, `float64` (finite, by exact value, or non-finite), strings,
non-byte slices, string-keyed maps (pairs listed in the map's iteration
order, which is arbitrary), and a stand-in for any unsupported type
(channel, function, marshaler-less struct, …) carrying its type name. -/
inductive GoVal where
  | nilAny
  | ptrNil
  | ptrTo (v : GoVal)
  | boolV (b : Bool)
  | intV (n : Int)
  | floatV (q : ℚ)
  | floatNonFinite
  | strV (s : List Nat)
  | arrV (elems : List GoVal)
  | mapV (pairs : List (List Nat × GoVal))
  | unsupported (tyName : List Nat)

/-- The bytes of `null`. -/
def nullTok : List Nat := [110, 117, 108, 108]

/-- The unwrap loop of decorator.go:191-198: strip `Interface`/`Ptr` layers;
`none` when a nil is found (the loop marshals `null` and returns). -/
def unwrapPtr : GoVal → Option GoVal
  | .ptrNil => none
  | .nilAny => none
  | .ptrTo v => unwrapPtr v
  | v => some v

/-- Go string comparison `<` (bytewise lexicographic), as used by the
`sort.Slice` call of decorator.go:285. -/
def strLt : List Nat → List Nat → Bool
  | [], [] => false
  | [], _ :: _ => true
  | _ :: _, [] => false
  | a :: as, b :: bs => if a < b then true else if b < a then false else strLt as bs

/-- Insertion into a `strLt`-sorted pair list. -/
def insertPair (p : List Nat × GoVal) :
    List (List Nat × GoVal) → List (List Nat × GoVal)
  | [] => [p]
  | q :: qs => if strLt p.1 q.1 then p :: q :: qs else q :: insertPair p qs

/-- The key sort of decorator.go:283-285 (`sort.Slice` with `keys <`):
modelled as insertion sort — with the distinct keys of a Go map any
comparison sort produces this same, unique sorted order. -/
def sortPairs : List (List Nat × GoVal) → List (List Nat × GoVal)
  | [] => []
  | p :: ps => insertPair p (sortPairs ps)

/-- `strconv.FormatInt(n, 10)` / `FormatUint`: decimal digits. -/
def formatInt (n : Int) : List Nat :=
  (if n < 0 then [45] else []) ++
  (if n.natAbs = 0 then [48] else (natDigits n.natAbs).map fmtDigit)

/-- The mutually recursive control points of `marshalValue`
(decorator.go:136): the dispatch itself (`inUnwrap = false` at function
entry, `true` inside the unwrap loop of decorator.go:191-198), the slice
element loop, and the map field loop. -/
inductive MCall where
  | val (inUnwrap : Bool) (g : GoVal)
  | elems (l : List GoVal) (first : Bool)
  | fields (l : List (List Nat × GoVal)) (first : Bool)

mutual

/-- Structural size of a `GoVal` (an upper bound on the recursion steps
`marshalGo` needs for it). -/
def sizeG : GoVal → Nat
  | .ptrTo v => sizeG v + 1
  | .arrV es => sizeGL es + 1
  | .mapV ps => sizeGF ps + 1
  | _ => 1

def sizeGL : List GoVal → Nat
  | [] => 1
  | v :: vs => sizeG v + sizeGL vs + 1

def sizeGF : List (List Nat × GoVal) → Nat
  | [] => 1
  | (_, v) :: ps => sizeG v + sizeGF ps + 1

end

/-- `marshalValue` (decorator.go:136) with its two inner loops: the dispatch
chain on the fragment of values `GoVal` covers.  The error latch and
incremental `put` calls of the decorator are modelled by `Except`: the first
error aborts and suppresses all output after it, exactly as the latch blocks
every later `put`, and `Marshal` only ever looks at the latch and discards
the sink output on error.  The fuel (always supplied ≥ the structural size)
makes the recursion structural; exhaustion maps to the stack overflow
unbounded recursion would produce in Go.

Note the typed-nil-pointer case at entry: decorator.go:148-150 calls
`marshalNull()` **without returning**, and the unwrap loop at
decorator.go:191-198 then sees the same nil pointer and emits `null` a
second time. -/
def marshalGo (prec : Nat) : Nat → MCall → Except MErr (List Nat)
  | 0, _ => .error .depthExceeded
  | fuel + 1, .val inUnwrap g =>
    match g with
    | .nilAny => .ok nullTok
    | .ptrNil => if inUnwrap then .ok nullTok else .ok (nullTok ++ nullTok)
    | .ptrTo v => marshalGo prec fuel (.val true v)
    | .arrV elems =>
      match marshalGo prec fuel (.elems elems true) with
      | .error e => .error e
      | .ok body => .ok (body ++ (if elems.isEmpty then [91, 93] else [93]))
    | .mapV pairs =>
      match marshalGo prec fuel (.fields (sortPairs pairs) true) with
      | .error e => .error e
      | .ok body => .ok (body ++ (if pairs.isEmpty then [123, 125] else [125]))
    | .intV n => .ok (formatInt n)
    | .floatV q => .ok (fmtG prec q)
    | .floatNonFinite => .error .unsupportedFloat
    | .strV s => .ok ([34] ++ scrambleStr s ++ [34])
    | .boolV b => .ok (if b then [116, 114, 117, 101] else [102, 97, 108, 115, 101])
    | .unsupported ty => .error (.unsupportedType ty)
  | fuel + 1, .elems l first =>
    match l with
    | [] => .ok []
    | v :: vs =>
      match marshalGo prec fuel (.val false v) with
      | .error e => .error e
      | .ok b =>
        match marshalGo prec fuel (.elems vs false) with
        | .error e => .error e
        | .ok rest => .ok ((if first then [91] else [44]) ++ b ++ rest)
  | fuel + 1, .fields l first =>
    match l with
    | [] => .ok []
    | (k, v) :: ps =>
      match marshalGo prec fuel (.val false v) with
      | .error e => .error e
      | .ok b =>
        match marshalGo prec fuel (.fields ps false) with
        | .error e => .error e
        | .ok rest =>
          .ok ((if first then [123, 34] else [44, 34]) ++ scrambleStr k ++ [34, 58] ++ b ++ rest)

/-- `marshalValue` at function entry, with enough fuel for the whole value. -/
def marshalValue (prec : Nat) (g : GoVal) : Except MErr (List Nat) :=
  marshalGo prec (sizeG g + 1) (.val false g)

/-- Marshal options: `FloatPrecision` (writer.go:66) or any other option
value (silently ignored by `parseMarshalOptions`'s type switch). -/
inductive MOpt where
  | floatPrecision (p : Int)
  | unrecognized
deriving DecidableEq, Repr

/-- `parseMarshalOptions` (writer.go:70): default precision 6; a negative
`FloatPrecision` is an error; unrecognized option values are ignored. -/
def parseMarshalOptions (opts : List MOpt) : Except MErr Nat :=
  let rec go (precision : Nat) : List MOpt → Except MErr Nat
    | [] => .ok precision
    | .floatPrecision p :: rest =>
      if p < 0 then .error (.invalidPrecision p) else go p.toNat rest
    | .unrecognized :: rest => go precision rest
  go 6 opts

/-- `Marshal` (writer.go:86): validate options, marshal into the string
builder, and return `("", err)` when the decorator recorded any error. -/
def Marshal (v : GoVal) (opts : List MOpt) : List Nat × Option MErr :=
  match parseMarshalOptions opts with
  | .error e => ([], some e)
  | .ok precision =>
    match marshalValue precision v with
    | .error e => ([], some e)
    | .ok out => (out, none)

/-! ## Decorator error latch (`handleError` / `put`, decorator.go:21-41) -/

/-- Decorator state: the output already accepted by the sink, and the error
latch. -/
structure Decor where
  out : List Nat
  err : Option MErr
deriving DecidableEq, Repr

/-- `handleError` (decorator.go:21): record `e` only if no error is latched
yet. -/
def handleError (d : Decor) (e : MErr) : Decor :=
  if d.err = none then { d with err := some e } else d

/-- One emission step observable at the decorator: a `put` whose sink write
returns `res` (`none` = success — the write is accepted; `some e` = the
sink failed, e.g. a full or broken writer), or a direct `handleError` from
any marshaling failure. -/
inductive DecOp where
  | put (s : List Nat) (res : Option MErr)
  | fail (e : MErr)

/-- `put` (decorator.go:33): blocked entirely once the latch is set;
otherwise the bytes go to the sink and a sink error is latched. -/
def putD (d : Decor) (s : List Nat) (res : Option MErr) : Decor :=
  if d.err ≠ none then d
  else
    match res with
    | none => { d with out := d.out ++ s }
    | some e => handleError d e

/-- Run a sequence of emission operations against a decorator. -/
def applyOps (ops : List DecOp) (d : Decor) : Decor :=
  match ops with
  | [] => d
  | .put s res :: rest => applyOps rest (putD d s res)
  | .fail e :: rest => applyOps rest (handleError d e)

/-- First error a sequence of operations produces. -/
def firstErr : List DecOp → Option MErr
  | [] => none
  | .put _ none :: rest => firstErr rest
  | .put _ (some e) :: _ => some e
  | .fail e :: _ => some e

/-! ## Round-trip apparatus (claim C1) -/

/-- The bytes `scrambleStr` contributes for one input byte: the escape if
the byte needs one, else the byte itself. -/
def escByte (b : Nat) : List Nat := (escapeOf b).getD [b]

mutual

/-- The `any` value the reader's fragment corresponds to on the writer
side: `nil`, `bool`, `float64`, `string`, `[]any`, `map[string]any`. -/
def toGoVal : JValue → GoVal
  | .null => .nilAny
  | .bool b => .boolV b
  | .num q => .floatV q
  | .str s => .strV s
  | .arr es => .arrV (toGoValL es)
  | .obj fs => .mapV (toGoValF fs)

def toGoValL : List JValue → List GoVal
  | [] => []
  | v :: vs => toGoVal v :: toGoValL vs

def toGoValF : List (List Nat × JValue) → List (List Nat × GoVal)
  | [] => []
  | (k, v) :: fs => (k, toGoVal v) :: toGoValF fs

end

/-- `insertPair` on reader-side values (same key comparison). -/
def insertPairJ (p : List Nat × JValue) :
    List (List Nat × JValue) → List (List Nat × JValue)
  | [] => [p]
  | q :: qs => if strLt p.1 q.1 then p :: q :: qs else q :: insertPairJ p qs

/-- `sortPairs` on reader-side values. -/
def sortPairsJ : List (List Nat × JValue) → List (List Nat × JValue)
  | [] => []
  | p :: ps => insertPairJ p (sortPairsJ ps)

mutual

/-- Key-order normalization: the value with every object's fields in the
sorted order the writer emits (values and everything else unchanged). -/
def normJ : JValue → JValue
  | .null => .null
  | .bool b => .bool b
  | .num q => .num q
  | .str s => .str s
  | .arr es => .arr (normJL es)
  | .obj fs => .obj (sortPairsJ (normJF fs))

def normJL : List JValue → List JValue
  | [] => []
  | v :: vs => normJ v :: normJL vs

def normJF : List (List Nat × JValue) → List (List Nat × JValue)
  | [] => []
  | (k, v) :: fs => (k, normJ v) :: normJF fs

end

mutual

/-- Reader recursion depth needed for a value (each `readGo` recursion
below strictly decreases it). -/
def sizeJ : JValue → Nat
  | .arr es => sizeJL es + 1
  | .obj fs => sizeJF fs + 1
  | _ => 1

def sizeJL : List JValue → Nat
  | [] => 0
  | v :: vs => sizeJ v + sizeJL vs + 1

def sizeJF : List (List Nat × JValue) → Nat
  | [] => 0
  | (_, v) :: ps => sizeJ v + sizeJF ps + 1

end

mutual

/-- The round-trippable values: every number formats (at the default
precision 6) to a literal the number grammar consumes whole and
`ParseFloat` parses back to exactly the same value, and every object's
keys are distinct (as the keys of a Go map are). -/
def JOkB : JValue → Bool
  | .null => true
  | .bool _ => true
  | .str _ => true
  | .num q =>
    decide (numGrammar (fmtG 6 q) = some []) &&
    decide (goParseFloat (fmtG 6 q) = FloatParse.val q)
  | .arr es => JOkBL es
  | .obj fs => decide ((fs.map Prod.fst).Nodup) && JOkBF fs

def JOkBL : List JValue → Bool
  | [] => true
  | v :: vs => JOkB v && JOkBL vs

def JOkBF : List (List Nat × JValue) → Bool
  | [] => true
  | (_, v) :: ps => JOkB v && JOkBF ps

end

mutual

/-- The byte string `Marshal` produces for a value whose object fields are
already in sorted order (the writer's own output shape, laid out the way
the reader consumes it). -/
def encJ : JValue → List Nat
  | .null => nullTok
  | .bool b => if b then [116, 114, 117, 101] else [102, 97, 108, 115, 101]
  | .num q => fmtG 6 q
  | .str s => [34] ++ scrambleStr s ++ [34]
  | .arr es => if es.isEmpty then [91, 93] else [91] ++ encElems es ++ [93]
  | .obj fs => if fs.isEmpty then [123, 125] else [123] ++ encMembers fs ++ [125]

def encElems : List JValue → List Nat
  | [] => []
  | v :: vs => encJ v ++ (if vs.isEmpty then [] else [44]) ++ encElems vs

def encMembers : List (List Nat × JValue) → List Nat
  | [] => []
  | (k, v) :: ps =>
    [34] ++ scrambleStr k ++ [34, 58] ++ encJ v ++
      (if ps.isEmpty then [] else [44]) ++ encMembers ps

end

mutual

/-- Structural equivalence of decoded values as the spec states it:
everything equal except that the fields of corresponding objects may be
listed in different orders. -/
inductive JEquiv : JValue → JValue → Prop where
  | null : JEquiv .null .null
  | bool (b : Bool) : JEquiv (.bool b) (.bool b)
  | num (q : ℚ) : JEquiv (.num q) (.num q)
  | str (s : List Nat) : JEquiv (.str s) (.str s)
  | arr {es fs : List JValue} : JEquivL es fs → JEquiv (.arr es) (.arr fs)
  | obj {ps ps' qs : List (List Nat × JValue)} :
      List.Perm ps ps' → JEquivF ps' qs → JEquiv (.obj ps) (.obj qs)

inductive JEquivL : List JValue → List JValue → Prop where
  | nil : JEquivL [] []
  | cons {a b : JValue} {as bs : List JValue} :
      JEquiv a b → JEquivL as bs → JEquivL (a :: as) (b :: bs)

inductive JEquivF : List (List Nat × JValue) → List (List Nat × JValue) → Prop where
  | nil : JEquivF [] []
  | cons {k : List Nat} {v w : JValue} {ps qs : List (List Nat × JValue)} :
      JEquiv v w → JEquivF ps qs → JEquivF ((k, v) :: ps) ((k, w) :: qs)

end

/-! ## Supporting lemmas -/

theorem lookupKey_mapInsert (m : List (List Nat × JValue)) (k : List Nat) (v : JValue) :
    lookupKey k (mapInsert m k v) = some v := by
  induction m with
  | nil => simp [mapInsert, lookupKey]
  | cons p rest ih =>
    obtain ⟨k2, v2⟩ := p
    by_cases h : k2 = k
    · simp [mapInsert, h, lookupKey]
    · simp [mapInsert, h, lookupKey, ih]

theorem applyOps_latched (ops : List DecOp) : ∀ d : Decor, d.err ≠ none →
    applyOps ops d = d := by
  induction ops with
  | nil => intro d _; rfl
  | cons op rest ih =>
    intro d hd
    match op with
    | .put s res =>
      have hput : putD d s res = d := by simp only [putD, if_pos hd]
      rw [applyOps, hput]
      exact ih d hd
    | .fail e =>
      have hh : handleError d e = d := by
        rw [handleError, if_neg hd]
      rw [applyOps, hh]
      exact ih d hd

theorem applyOps_firstErr (ops : List DecOp) : ∀ d : Decor, d.err = none →
    (applyOps ops d).err = firstErr ops := by
  induction ops with
  | nil => intro d hd; exact hd
  | cons op rest ih =>
    intro d hd
    match op with
    | .put s none =>
      have hput : putD d s none = { d with out := d.out ++ s } := by
        simp only [putD, if_neg (by simp [hd] : ¬ d.err ≠ none)]
      rw [applyOps, hput, firstErr]
      exact ih _ (by simpa using hd)
    | .put s (some e) =>
      have hput : putD d s (some e) = { d with err := some e } := by
        simp only [putD, if_neg (by simp [hd] : ¬ d.err ≠ none), handleError, if_pos hd]
      rw [applyOps, hput, firstErr,
        applyOps_latched rest { d with err := some e } (by simp)]
    | .fail e =>
      have hh : handleError d e = { d with err := some e } := by
        rw [handleError, if_pos hd]
      rw [applyOps, hh, firstErr,
        applyOps_latched rest { d with err := some e } (by simp)]

theorem strLt_asymm : ∀ a b : List Nat, strLt a b = true → strLt b a = false := by
  intro a
  induction a with
  | nil => intro b h; cases b <;> simp_all [strLt]
  | cons x xs ih =>
    intro b h
    cases b with
    | nil => simp [strLt] at h
    | cons y ys =>
      rw [strLt] at h ⊢
      rcases Nat.lt_trichotomy x y with h1 | h1 | h1
      · rw [if_neg (by omega : ¬ y < x), if_pos h1]
      · subst h1
        rw [if_neg (by omega : ¬ x < x), if_neg (by omega : ¬ x < x)] at h ⊢
        exact ih ys h
      · rw [if_neg (by omega : ¬ x < y), if_pos h1] at h
        exact absurd h (by simp)

theorem strLt_trans : ∀ a b c : List Nat,
    strLt a b = true → strLt b c = true → strLt a c = true := by
  intro a
  induction a with
  | nil =>
    intro b c hab hbc
    cases b with
    | nil => simp [strLt] at hab
    | cons y ys => cases c with
      | nil => simp [strLt] at hbc
      | cons z zs => simp [strLt]
  | cons x xs ih =>
    intro b c hab hbc
    cases b with
    | nil => simp [strLt] at hab
    | cons y ys =>
      cases c with
      | nil => simp [strLt] at hbc
      | cons z zs =>
        rw [strLt] at hab hbc ⊢
        rcases Nat.lt_trichotomy x y with h1 | h1 | h1
        · rcases Nat.lt_trichotomy y z with h2 | h2 | h2
          · rw [if_pos (by omega : x < z)]
          · subst h2; rw [if_pos h1]
          · rw [if_neg (by omega : ¬ y < z), if_pos h2] at hbc
            exact absurd hbc (by simp)
        · subst h1
          rw [if_neg (by omega : ¬ x < x), if_neg (by omega : ¬ x < x)] at hab
          rcases Nat.lt_trichotomy x z with h2 | h2 | h2
          · rw [if_pos h2]
          · subst h2
            rw [if_neg (by omega : ¬ x < x), if_neg (by omega : ¬ x < x)] at hbc ⊢
            exact ih ys zs hab hbc
          · rw [if_neg (by omega : ¬ x < z), if_pos h2] at hbc
            exact absurd hbc (by simp)
        · rw [if_neg (by omega : ¬ x < y), if_pos h1] at hab
          exact absurd hab (by simp)

/-- The non-descending key order `sort.Slice` establishes. -/
def keyLe (p q : List Nat × GoVal) : Prop := strLt q.1 p.1 = false

theorem insertPair_perm (p : List Nat × GoVal) :
    ∀ l, (insertPair p l).Perm (p :: l) := by
  intro l
  induction l with
  | nil => simp [insertPair]
  | cons q qs ih =>
    rw [insertPair]
    by_cases h : strLt p.1 q.1
    · rw [if_pos h]
    · rw [if_neg h]
      exact (ih.cons q).trans (List.Perm.swap p q qs)

theorem sortPairs_perm : ∀ l, (sortPairs l).Perm l := by
  intro l
  induction l with
  | nil => simp [sortPairs]
  | cons p ps ih =>
    rw [sortPairs]
    exact (insertPair_perm p (sortPairs ps)).trans (ih.cons p)

theorem insertPair_pairwise (p : List Nat × GoVal) :
    ∀ l, l.Pairwise keyLe → (insertPair p l).Pairwise keyLe := by
  intro l
  induction l with
  | nil => intro _; simp [insertPair, keyLe]
  | cons q qs ih =>
    intro h
    rw [List.pairwise_cons] at h
    obtain ⟨hq, hqs⟩ := h
    rw [insertPair]
    by_cases hlt : strLt p.1 q.1
    · rw [if_pos hlt, List.pairwise_cons]
      refine ⟨?_, List.pairwise_cons.mpr ⟨hq, hqs⟩⟩
      intro x hx
      rcases List.mem_cons.mp hx with hx | hx
      · subst hx
        exact strLt_asymm _ _ hlt
      · have hqx : strLt x.1 q.1 = false := hq x hx
        rw [keyLe]
        by_cases hxp : strLt x.1 p.1
        · exact absurd (strLt_trans _ _ _ hxp hlt) (by simp [hqx])
        · simpa using hxp
    · rw [if_neg hlt, List.pairwise_cons]
      refine ⟨?_, ih hqs⟩
      intro x hx
      have hmem := (insertPair_perm p qs).mem_iff.mp hx
      rcases List.mem_cons.mp hmem with hx2 | hx2
      · subst hx2
        rw [keyLe]
        simpa using hlt
      · exact hq x hx2

theorem sortPairs_pairwise : ∀ l, (sortPairs l).Pairwise keyLe := by
  intro l
  induction l with
  | nil => simp [sortPairs]
  | cons p ps ih => exact insertPair_pairwise p (sortPairs ps) ih

/-- Modelled from the spec: the per-byte escaping rule of §4.3 — `\b \f \n
\r \t \\ \"` become their two-character escapes, any other byte below 0x20
becomes `\u00XX` with lowercase hex digits, the forward slash and every
other byte (including multi-byte UTF-8 sequence bytes) pass through
unchanged. -/
def specEscapeByte (b : Nat) : List Nat :=
  if b = 8 then [92, 98]
  else if b = 12 then [92, 102]
  else if b = 10 then [92, 110]
  else if b = 13 then [92, 114]
  else if b = 9 then [92, 116]
  else if b = 92 then [92, 92]
  else if b = 34 then [92, 34]
  else if b < 32 then
    [92, 117, 48, 48,
      (if b / 16 < 10 then 48 + b / 16 else 87 + b / 16),
      (if b % 16 < 10 then 48 + b % 16 else 87 + b % 16)]
  else [b]

/-- The byte `scrambleStr` emits for one input byte equals the spec's rule. -/
theorem escapeOf_spec (b : Nat) :
    (escapeOf b).getD [b] = specEscapeByte b := by
  by_cases hlt : b < 32
  · interval_cases b <;> decide
  · by_cases h92 : b = 92
    · subst h92; decide
    · by_cases h34 : b = 34
      · subst h34; decide
      · have h8 : ¬ b = 8 := by omega
        have h12 : ¬ b = 12 := by omega
        have h10 : ¬ b = 10 := by omega
        have h13 : ¬ b = 13 := by omega
        have h9 : ¬ b = 9 := by omega
        have hf : ¬ b ≤ 15 := by omega
        have h1f : ¬ b ≤ 31 := by omega
        simp only [escapeOf, specEscapeByte, h8, h12, h10, h13, h9, h92, h34, hf, h1f,
          hlt, if_false, Option.getD_none]

theorem sliceBC_self (s : List Nat) (b : Nat) : sliceBC s b b = [] := by
  simp [sliceBC]

theorem sliceBC_succ (s : List Nat) (b c : Nat) (hbc : b ≤ c) (hc : c < s.length) :
    sliceBC s b (c + 1) = sliceBC s b c ++ [s.getD c 0] := by
  rw [sliceBC, sliceBC]
  have h1 : c + 1 - b = (c - b) + 1 := by omega
  rw [h1, List.take_succ]
  congr 1
  have h2 : (s.drop b)[c - b]? = s[c]? := by
    rw [List.getElem?_drop]
    congr 1
    omega
  rw [h2, List.getD_eq_getElem?_getD, List.getElem?_eq_getElem hc]
  rfl

theorem scrambleAux_spec (s : List Nat) :
    ∀ (fuel c b : Nat), c + fuel = s.length → b ≤ c →
    scrambleAux s b c fuel =
      sliceBC s b c ++ (s.drop c).flatMap (fun x => (escapeOf x).getD [x]) := by
  intro fuel
  induction fuel with
  | zero =>
    intro c b hlen hbc
    have hc : c = s.length := by omega
    rw [scrambleAux, hc, List.drop_length, List.flatMap_nil, List.append_nil]
    by_cases h : s.length = b
    · rw [if_neg (by omega), ← h, sliceBC_self]
    · rw [if_pos (by omega)]
  | succ fuel ih =>
    intro c b hlen hbc
    have hc : c < s.length := by omega
    have hdrop : s.drop c = s.getD c 0 :: s.drop (c + 1) := by
      rw [List.drop_eq_getElem_cons hc, List.getD_eq_getElem?_getD,
        List.getElem?_eq_getElem hc]
      rfl
    rw [scrambleAux]
    match hesc : escapeOf (s.getD c 0) with
    | some w =>
      rw [ih (c + 1) (c + 1) (by omega) le_rfl, sliceBC_self, List.nil_append,
        hdrop, List.flatMap_cons, hesc]
      simp only [Option.getD_some, List.append_assoc]
    | none =>
      rw [ih (c + 1) b (by omega) (by omega), sliceBC_succ s b c hbc hc,
        hdrop, List.flatMap_cons, hesc]
      simp only [Option.getD_none, List.append_assoc, List.singleton_append]

/-! ### The shape of JSON number literals -/

/-- All bytes are ASCII digits. -/
def allDigits (l : List Nat) : Prop := ∀ d ∈ l, isDigitByte d = true

/-- Decomposition of a literal the number grammar accepts: optional sign,
integer part (either a single `0` or a nonzero-led digit run), optional
fraction (`.` plus at least one digit), optional exponent (`e`/`E`,
optional sign, at least one digit). -/
structure NumShape (sgn ip fp ep : List Nat) : Prop where
  sgn_ok : sgn = [] ∨ sgn = [45]
  ip_ok : ip = [48] ∨ ∃ c ds, ip = c :: ds ∧ 49 ≤ c ∧ c ≤ 57 ∧ allDigits ds
  fp_ok : fp = [] ∨ ∃ fs, fp = 46 :: fs ∧ fs ≠ [] ∧ allDigits fs
  ep_ok : ep = [] ∨ ∃ e0 sg es, ep = e0 :: (sg ++ es) ∧ (e0 = 101 ∨ e0 = 69) ∧
    (sg = [] ∨ sg = [43] ∨ sg = [45]) ∧ es ≠ [] ∧ allDigits es

theorem skipByteS_true {b : Nat} {s t : List Nat} (h : skipByteS b s = (true, t)) :
    s = b :: t := by
  match s with
  | [] => simp [skipByteS] at h
  | c :: cs =>
    rw [skipByteS] at h
    by_cases hc : c = b
    · rw [if_pos hc] at h
      simp only [Prod.mk.injEq] at h
      rw [hc, h.2]
    · rw [if_neg hc] at h
      simp at h

theorem dropDigits_split : ∀ s : List Nat, ∃ ds, s = ds ++ dropDigits s ∧
    allDigits ds ∧ isDecimalDigitS (dropDigits s) = false := by
  intro s
  induction s with
  | nil => exact ⟨[], rfl, fun d h => absurd h (List.not_mem_nil d), rfl⟩
  | cons c cs ih =>
    by_cases h : isDigitByte c
    · obtain ⟨ds, h1, h2, h3⟩ := ih
      rw [dropDigits, if_pos h]
      refine ⟨c :: ds, ?_, ?_, h3⟩
      · rw [List.cons_append, ← h1]
      · intro d hd
        rcases List.mem_cons.mp hd with hd | hd
        · exact hd ▸ h
        · exact h2 d hd
    · rw [dropDigits, if_neg h]
      exact ⟨[], rfl, fun d hd => absurd hd (List.not_mem_nil d),
        by rw [isDecimalDigitS]; simpa using h⟩

theorem dropDigits_exact (ds t : List Nat) (hds : allDigits ds)
    (ht : isDecimalDigitS t = false) : dropDigits (ds ++ t) = t := by
  induction ds with
  | nil =>
    match t with
    | [] => rfl
    | c :: cs =>
      rw [isDecimalDigitS] at ht
      rw [List.nil_append, dropDigits, if_neg (by simp [ht])]
  | cons d ds ih =>
    rw [List.cons_append, dropDigits, if_pos (hds d (by simp))]
    exact ih (fun x hx => hds x (by simp [hx]))

theorem digitRun_exact (ds t : List Nat) (hds : allDigits ds)
    (ht : isDecimalDigitS t = false) : digitRun (ds ++ t) = (ds, t) := by
  induction ds with
  | nil =>
    match t with
    | [] => rfl
    | c :: cs =>
      rw [isDecimalDigitS] at ht
      rw [List.nil_append, digitRun, if_neg (by simp [ht])]
  | cons d ds ih =>
    rw [List.cons_append, digitRun, if_pos (hds d (by simp)),
      ih (fun x hx => hds x (by simp [hx]))]

theorem skipByteS_false {b : Nat} {s t : List Nat} (h : skipByteS b s = (false, t)) :
    t = s := by
  match s with
  | [] =>
    rw [skipByteS] at h
    exact (congrArg Prod.snd h).symm
  | c :: cs =>
    rw [skipByteS] at h
    by_cases hc : c = b
    · rw [if_pos hc] at h
      exact absurd (congrArg Prod.fst h) (by simp)
    · rw [if_neg hc] at h
      exact (congrArg Prod.snd h).symm

theorem intPartG_split {s1 s2 : List Nat} (h : intPartG s1 = some s2) :
    ∃ ip, s1 = ip ++ s2 ∧
      (ip = [48] ∨ ∃ c ds, ip = c :: ds ∧ 49 ≤ c ∧ c ≤ 57 ∧ allDigits ds) ∧
      isDecimalDigitS s2 = false := by
  rw [intPartG.eq_def] at h
  split at h
  next s2z hz =>
    by_cases hd : isDecimalDigitS s2z
    · rw [if_pos hd] at h
      exact absurd h (by simp)
    · rw [if_neg hd] at h
      obtain rfl : s2z = s2 := by simpa using h
      exact ⟨[48], skipByteS_true hz, Or.inl rfl, by simpa using hd⟩
  next x hz =>
    split at h
    next c cs =>
      by_cases hc : 49 ≤ c ∧ c ≤ 57
      · rw [if_pos hc] at h
        obtain rfl : dropDigits cs = s2 := by simpa using h
        obtain ⟨ds, hsplit, hdig, hrest⟩ := dropDigits_split cs
        exact ⟨c :: ds, by rw [List.cons_append, ← hsplit],
          Or.inr ⟨c, ds, rfl, hc.1, hc.2, hdig⟩, hrest⟩
      · rw [if_neg hc] at h
        exact absurd h (by simp)
    next =>
      exact absurd h (by simp)

theorem fracPartG_split {s2 s5 : List Nat} (h : fracPartG s2 = some s5) :
    ∃ fp, s2 = fp ++ s5 ∧
      (fp = [] ∨ ∃ fs, fp = 46 :: fs ∧ fs ≠ [] ∧ allDigits fs) := by
  rw [fracPartG.eq_def] at h
  split at h
  next s3 hz =>
    split at h
    next => exact absurd h (by simp)
    next s4 hd =>
      rw [skipDigitsS] at hd
      simp only [Prod.mk.injEq] at hd
      split at h
      next => exact absurd h (by simp)
      next s5b hz2 =>
        have h55 : s5b = s5 := by simpa using h
        have h4 : s5b = s4 := skipByteS_false hz2
        obtain ⟨fs, hsplit, hdig, hrest⟩ := dropDigits_split s3
        have hfs : fs ≠ [] := by
          intro hfs
          rw [hfs, List.nil_append] at hsplit
          rw [← hsplit] at hrest
          rw [hrest] at hd
          simp at hd
        refine ⟨46 :: fs, ?_, Or.inr ⟨fs, rfl, hfs, hdig⟩⟩
        rw [skipByteS_true hz, List.cons_append, hsplit, hd.2, ← h4, h55]
  next x hz =>
    obtain rfl : s2 = s5 := by simpa using h
    exact ⟨[], rfl, Or.inl rfl⟩

theorem expTail_split {s6 rest : List Nat} (h : expTail s6 = some rest) :
    ∃ sg es, s6 = sg ++ es ++ rest ∧ (sg = [] ∨ sg = [43] ∨ sg = [45]) ∧
      es ≠ [] ∧ allDigits es := by
  rcases hp : skipByteS 43 s6 with ⟨bp, t1⟩
  have hbody : ∀ s7 sg, s6 = sg ++ s7 → (sg = [] ∨ sg = [43] ∨ sg = [45]) →
      (match skipDigitsS s7 with
        | (false, _) => none
        | (true, s8) =>
          match skipByteS 101 s8 with
          | (true, _) => none
          | (false, _) =>
            match skipByteS 69 s8 with
            | (true, _) => none
            | (false, _) => some s8) = some rest →
      ∃ sg2 es, s6 = sg2 ++ es ++ rest ∧ (sg2 = [] ∨ sg2 = [43] ∨ sg2 = [45]) ∧
        es ≠ [] ∧ allDigits es := by
    intro s7 sg hs6 hsg hm
    split at hm
    next => exact absurd hm (by simp)
    next s8 hd =>
      rw [skipDigitsS] at hd
      simp only [Prod.mk.injEq] at hd
      split at hm
      next => exact absurd hm (by simp)
      next =>
        split at hm
        next => exact absurd hm (by simp)
        next =>
          obtain rfl : s8 = rest := by simpa using hm
          obtain ⟨es, hsplit, hdig, hrest2⟩ := dropDigits_split s7
          have hes : es ≠ [] := by
            intro hes
            rw [hes, List.nil_append] at hsplit
            rw [← hsplit] at hrest2
            rw [hrest2] at hd
            simp at hd
          refine ⟨sg, es, ?_, hsg, hes, hdig⟩
          rw [hs6, hsplit, hd.2, List.append_assoc]
  cases bp with
  | true =>
    rw [expTail, hp] at h
    exact hbody t1 [43] (skipByteS_true hp) (Or.inr (Or.inl rfl)) h
  | false =>
    rcases hm : skipByteS 45 s6 with ⟨bm, t2⟩
    cases bm with
    | true =>
      rw [expTail, hp, hm] at h
      exact hbody t2 [45] (skipByteS_true hm) (Or.inr (Or.inr rfl)) h
    | false =>
      rw [expTail, hp, hm] at h
      exact hbody t2 [] (by rw [skipByteS_false hm, List.nil_append]) (Or.inl rfl) h

theorem expPartG_split {s5 rest : List Nat} (h : expPartG s5 = some rest) :
    ∃ ep, s5 = ep ++ rest ∧
      (ep = [] ∨ ∃ e0 sg es, ep = e0 :: (sg ++ es) ∧ (e0 = 101 ∨ e0 = 69) ∧
        (sg = [] ∨ sg = [43] ∨ sg = [45]) ∧ es ≠ [] ∧ allDigits es) := by
  rcases he : skipByteS 101 s5 with ⟨b1, s6⟩
  cases b1 with
  | true =>
    rw [expPartG, he] at h
    obtain ⟨sg, es, hsplit, hsg, hes, hdig⟩ := expTail_split h
    exact ⟨101 :: (sg ++ es), by rw [skipByteS_true he, hsplit]; simp,
      Or.inr ⟨101, sg, es, rfl, Or.inl rfl, hsg, hes, hdig⟩⟩
  | false =>
    rcases hE : skipByteS 69 s5 with ⟨b2, s6b⟩
    cases b2 with
    | true =>
      rw [expPartG, he, hE] at h
      obtain ⟨sg, es, hsplit, hsg, hes, hdig⟩ := expTail_split h
      exact ⟨69 :: (sg ++ es), by rw [skipByteS_true hE, hsplit]; simp,
        Or.inr ⟨69, sg, es, rfl, Or.inr rfl, hsg, hes, hdig⟩⟩
    | false =>
      rw [expPartG, he, hE] at h
      obtain rfl : s5 = rest := by simpa using h
      exact ⟨[], rfl, Or.inl rfl⟩

theorem numGrammar_split {s rest : List Nat} (h : numGrammar s = some rest) :
    ∃ sgn ip fp ep, s = sgn ++ ip ++ fp ++ ep ++ rest ∧ NumShape sgn ip fp ep := by
  rcases hm : skipByteS 45 s with ⟨bm, s1⟩
  have hs1 : s = (if bm then [45] else []) ++ s1 := by
    cases bm with
    | true => exact skipByteS_true hm
    | false => rw [skipByteS_false hm]; rfl
  rw [numGrammar.eq_def, hm] at h
  split at h
  next => exact absurd h (by simp)
  next s2 hint0 =>
    have hint : intPartG s1 = some s2 := hint0
    split at h
    next => exact absurd h (by simp)
    next s5 hfrac =>
      obtain ⟨ip, hip, hipS, -⟩ := intPartG_split hint
      obtain ⟨fp, hfp, hfpS⟩ := fracPartG_split hfrac
      obtain ⟨ep, hep, hepS⟩ := expPartG_split h
      refine ⟨if bm then [45] else [], ip, fp, ep, ?_, ?_⟩
      · rw [hs1, hip, hfp, hep]
        simp [List.append_assoc]
      · exact ⟨by cases bm <;> simp, hipS, hfpS, hepS⟩

/-! ### The grammar consumes exactly a shaped literal -/

/-- A continuation in front of which a number literal stops: end of input
or a byte no number literal continues with (never a digit, `.`, `e`, `E`). -/
def safeHead : List Nat → Prop
  | [] => True
  | c :: _ => isDigitByte c = false ∧ c ≠ 46 ∧ c ≠ 101 ∧ c ≠ 69

theorem safeHead_digitS {r : List Nat} (hr : safeHead r) :
    isDecimalDigitS r = false := by
  match r, hr with
  | [], _ => rfl
  | c :: cs, ⟨hd, _, _, _⟩ => rw [isDecimalDigitS]; exact hd

theorem safeHead_skipByteS {r : List Nat} (hr : safeHead r) {b : Nat}
    (hb : b = 46 ∨ b = 101 ∨ b = 69) : skipByteS b r = (false, r) := by
  match r, hr with
  | [], _ => rfl
  | c :: cs, ⟨_, h46, h101, h69⟩ =>
    rw [skipByteS, if_neg ?_]
    rcases hb with rfl | rfl | rfl
    · exact h46
    · exact h101
    · exact h69

theorem skipByteS_cons_ne {b c : Nat} (h : c ≠ b) (cs : List Nat) :
    skipByteS b (c :: cs) = (false, c :: cs) := by
  rw [skipByteS, if_neg h]

theorem skipByteS_cons_eq (b : Nat) (cs : List Nat) :
    skipByteS b (b :: cs) = (true, cs) := by
  rw [skipByteS, if_pos rfl]

theorem intPartG_complete {ip : List Nat} (r : List Nat)
    (hip : ip = [48] ∨ ∃ c ds, ip = c :: ds ∧ 49 ≤ c ∧ c ≤ 57 ∧ allDigits ds)
    (hr : isDecimalDigitS r = false) :
    intPartG (ip ++ r) = some r := by
  rcases hip with rfl | ⟨c, ds, rfl, hc1, hc2, hds⟩
  · rw [List.singleton_append, intPartG.eq_def, skipByteS_cons_eq]
    simp [hr]
  · rw [List.cons_append, intPartG.eq_def, skipByteS_cons_ne (by omega : c ≠ 48)]
    simp only []
    rw [if_pos ⟨hc1, hc2⟩, dropDigits_exact ds r hds hr]

theorem fracPartG_complete {fp : List Nat} (r : List Nat)
    (hfp : fp = [] ∨ ∃ fs, fp = 46 :: fs ∧ fs ≠ [] ∧ allDigits fs)
    (hnd : isDecimalDigitS r = false) (h46 : skipByteS 46 r = (false, r)) :
    fracPartG (fp ++ r) = some r := by
  rcases hfp with rfl | ⟨fs, rfl, hfs, hds⟩
  · rw [List.nil_append, fracPartG.eq_def, h46]
  · obtain ⟨f0, fs0, rfl⟩ : ∃ f0 fs0, fs = f0 :: fs0 := by
      match fs, hfs with
      | f0 :: fs0, _ => exact ⟨f0, fs0, rfl⟩
    have hdig : isDecimalDigitS ((f0 :: fs0) ++ r) = true := by
      rw [List.cons_append, isDecimalDigitS]
      exact hds f0 (by simp)
    rw [List.cons_append, fracPartG.eq_def, skipByteS_cons_eq]
    simp only [skipDigitsS, hdig, dropDigits_exact (f0 :: fs0) r hds hnd, h46]

theorem expTail_complete {sg es : List Nat} (r : List Nat)
    (hsg : sg = [] ∨ sg = [43] ∨ sg = [45]) (hes : es ≠ []) (hds : allDigits es)
    (hnd : isDecimalDigitS r = false)
    (h101 : skipByteS 101 r = (false, r)) (h69 : skipByteS 69 r = (false, r)) :
    expTail (sg ++ es ++ r) = some r := by
  obtain ⟨d0, ds0, rfl⟩ : ∃ d0 ds0, es = d0 :: ds0 := by
    match es, hes with
    | d0 :: ds0, _ => exact ⟨d0, ds0, rfl⟩
  have hd0 : isDigitByte d0 = true := hds d0 (by simp)
  have hdig : isDecimalDigitS (d0 :: (ds0 ++ r)) = true := by
    rw [isDecimalDigitS]; exact hd0
  have hdrop : dropDigits (d0 :: (ds0 ++ r)) = r := by
    have := dropDigits_exact (d0 :: ds0) r hds hnd
    rwa [List.cons_append] at this
  have hd43 : d0 ≠ 43 := by rw [isDigitByte] at hd0; simp at hd0; omega
  have hd45 : d0 ≠ 45 := by rw [isDigitByte] at hd0; simp at hd0; omega
  rcases hsg with rfl | rfl | rfl
  · have harg : ([] : List Nat) ++ (d0 :: ds0) ++ r = d0 :: (ds0 ++ r) := by simp
    rw [harg, expTail.eq_def, skipByteS_cons_ne hd43, skipByteS_cons_ne hd45]
    simp only [skipDigitsS, hdig, hdrop, h101, h69]
  · have harg : [43] ++ (d0 :: ds0) ++ r = 43 :: (d0 :: (ds0 ++ r)) := by simp
    rw [harg, expTail.eq_def, skipByteS_cons_eq]
    simp only [skipDigitsS, hdig, hdrop, h101, h69]
  · have harg : [45] ++ (d0 :: ds0) ++ r = 45 :: (d0 :: (ds0 ++ r)) := by simp
    rw [harg, expTail.eq_def, skipByteS_cons_ne (by omega : (45 : Nat) ≠ 43),
      skipByteS_cons_eq]
    simp only [skipDigitsS, hdig, hdrop, h101, h69]

theorem expPartG_complete {ep : List Nat} (r : List Nat)
    (hep : ep = [] ∨ ∃ e0 sg es, ep = e0 :: (sg ++ es) ∧ (e0 = 101 ∨ e0 = 69) ∧
      (sg = [] ∨ sg = [43] ∨ sg = [45]) ∧ es ≠ [] ∧ allDigits es)
    (hr : safeHead r) :
    expPartG (ep ++ r) = some r := by
  have h101 : skipByteS 101 r = (false, r) :=
    safeHead_skipByteS hr (Or.inr (Or.inl rfl))
  have h69 : skipByteS 69 r = (false, r) :=
    safeHead_skipByteS hr (Or.inr (Or.inr rfl))
  rcases hep with rfl | ⟨e0, sg, es, rfl, he0, hsg, hes, hds⟩
  · rw [List.nil_append, expPartG.eq_def, h101, h69]
  · have htail : expTail (sg ++ es ++ r) = some r :=
      expTail_complete r hsg hes hds (safeHead_digitS hr) h101 h69
    have harg : (e0 :: (sg ++ es)) ++ r = e0 :: (sg ++ es ++ r) := by
      rw [List.cons_append, List.append_assoc]
    rcases he0 with rfl | rfl
    · rw [harg, expPartG.eq_def, skipByteS_cons_eq]
      simp only [htail]
    · rw [harg, expPartG.eq_def,
        skipByteS_cons_ne (by omega : (69 : Nat) ≠ 101), skipByteS_cons_eq]
      simp only [htail]

theorem numGrammar_complete {sgn ip fp ep : List Nat} (r : List Nat)
    (hs : NumShape sgn ip fp ep) (hr : safeHead r) :
    numGrammar (sgn ++ ip ++ fp ++ ep ++ r) = some r := by
  obtain ⟨hsgn, hip, hfp, hep⟩ := hs
  have hipc : ∃ c cs, ip = c :: cs ∧ isDigitByte c = true := by
    rcases hip with rfl | ⟨c, ds, rfl, hc1, hc2, -⟩
    · exact ⟨48, [], rfl, rfl⟩
    · exact ⟨c, ds, rfl, by rw [isDigitByte]; simp; omega⟩
  obtain ⟨c0, cs0, hipe, hc0⟩ := hipc
  have hepnd : isDecimalDigitS (ep ++ r) = false := by
    rcases hep with rfl | ⟨e0, sg, es, rfl, he0, -, -, -⟩
    · rw [List.nil_append]; exact safeHead_digitS hr
    · rw [List.cons_append, isDecimalDigitS]
      rcases he0 with rfl | rfl <;> decide
  have hep46 : skipByteS 46 (ep ++ r) = (false, ep ++ r) := by
    rcases hep with rfl | ⟨e0, sg, es, rfl, he0, -, -, -⟩
    · rw [List.nil_append]
      exact safeHead_skipByteS hr (Or.inl rfl)
    · rw [List.cons_append, skipByteS_cons_ne (by rcases he0 with rfl | rfl <;> omega)]
  have hfpnd : isDecimalDigitS (fp ++ (ep ++ r)) = false := by
    rcases hfp with rfl | ⟨fs, rfl, -, -⟩
    · rw [List.nil_append]; exact hepnd
    · rw [List.cons_append, isDecimalDigitS]; rfl
  have hint : intPartG (ip ++ (fp ++ (ep ++ r))) = some (fp ++ (ep ++ r)) :=
    intPartG_complete _ hip hfpnd
  have hfrac : fracPartG (fp ++ (ep ++ r)) = some (ep ++ r) :=
    fracPartG_complete _ hfp hepnd hep46
  have hexp : expPartG (ep ++ r) = some r :=
    expPartG_complete r hep hr
  have hskip45 : (skipByteS 45 (sgn ++ ip ++ fp ++ ep ++ r)).2 =
      ip ++ (fp ++ (ep ++ r)) := by
    rcases hsgn with rfl | rfl
    · have harg : ([] : List Nat) ++ ip ++ fp ++ ep ++ r =
          c0 :: (cs0 ++ (fp ++ (ep ++ r))) := by
        rw [hipe]; simp [List.append_assoc]
      rw [harg, skipByteS_cons_ne (by rw [isDigitByte] at hc0; simp at hc0; omega)]
      rw [hipe]; simp [List.append_assoc]
    · have harg : [45] ++ ip ++ fp ++ ep ++ r =
          45 :: (ip ++ (fp ++ (ep ++ r))) := by
        simp [List.append_assoc]
      rw [harg, skipByteS_cons_eq]
  rw [numGrammar.eq_def, hskip45, hint]
  simp only [hfrac, hexp]

theorem numLit_head {lit : List Nat} (h : numGrammar lit = some []) :
    ∃ c cs, lit = c :: cs ∧ (c = 45 ∨ isDigitByte c = true) := by
  obtain ⟨sgn, ip, fp, ep, hsplit, hsgn, hip, -, -⟩ := numGrammar_split h
  rw [List.append_nil] at hsplit
  have hipc : ∃ c cs, ip = c :: cs ∧ isDigitByte c = true := by
    rcases hip with rfl | ⟨c, ds, rfl, hc1, hc2, -⟩
    · exact ⟨48, [], rfl, rfl⟩
    · exact ⟨c, ds, rfl, by rw [isDigitByte]; simp; omega⟩
  obtain ⟨c0, cs0, hipe, hc0⟩ := hipc
  rcases hsgn with rfl | rfl
  · refine ⟨c0, cs0 ++ fp ++ ep, ?_, Or.inr hc0⟩
    rw [hsplit, hipe]; simp [List.append_assoc]
  · refine ⟨45, ip ++ fp ++ ep, ?_, Or.inl rfl⟩
    rw [hsplit]; simp [List.append_assoc]

theorem parseNumber_complete {lit : List Nat} {q : ℚ} (rest : List Nat)
    (h1 : numGrammar lit = some []) (h2 : goParseFloat lit = FloatParse.val q)
    (hr : safeHead rest) :
    parseNumber (lit ++ rest) = Except.ok (q, rest) := by
  obtain ⟨sgn, ip, fp, ep, hsplit, hshape⟩ := numGrammar_split h1
  rw [List.append_nil] at hsplit
  have hng : numGrammar (lit ++ rest) = some rest := by
    have harg : lit ++ rest = sgn ++ ip ++ fp ++ ep ++ rest := by
      rw [hsplit]
    rw [harg]
    exact numGrammar_complete rest hshape hr
  have htake : (lit ++ rest).take ((lit ++ rest).length - rest.length) = lit := by
    rw [List.length_append, Nat.add_sub_cancel]
    exact List.take_left _ _
  rw [parseNumber.eq_def, hng]
  simp only [htake, h2]

/-! ### `ParseFloat` accepts every literal the grammar accepts -/

theorem isDecimalDigitS_append_shape {fp ep : List Nat}
    (hfp : fp = [] ∨ ∃ fs, fp = 46 :: fs ∧ fs ≠ [] ∧ allDigits fs)
    (hep : ep = [] ∨ ∃ e0 sg es, ep = e0 :: (sg ++ es) ∧ (e0 = 101 ∨ e0 = 69) ∧
      (sg = [] ∨ sg = [43] ∨ sg = [45]) ∧ es ≠ [] ∧ allDigits es) :
    isDecimalDigitS (fp ++ ep) = false := by
  rcases hfp with rfl | ⟨fs, rfl, -, -⟩
  · rw [List.nil_append]
    rcases hep with rfl | ⟨e0, sg, es, rfl, he0, -, -, -⟩
    · rfl
    · rw [isDecimalDigitS]
      rcases he0 with rfl | rfl <;> decide
  · rw [List.cons_append, isDecimalDigitS]
    decide

theorem gpfRound_ne (q : ℚ) : gpfRound q ≠ FloatParse.syntaxErr := by
  rw [gpfRound.eq_def]
  split <;> simp

theorem gpfFinish_ne (neg : Bool) (ids fds : List Nat) (ev : Int) :
    gpfFinish neg ids fds ev [] ≠ FloatParse.syntaxErr := by
  rw [gpfFinish]
  rw [if_pos (show ([] : List Nat).isEmpty = true from rfl)]
  exact gpfRound_ne _

theorem gpfExp_shape {ep : List Nat} (neg : Bool) (ids fds : List Nat)
    (hep : ep = [] ∨ ∃ e0 sg es, ep = e0 :: (sg ++ es) ∧ (e0 = 101 ∨ e0 = 69) ∧
      (sg = [] ∨ sg = [43] ∨ sg = [45]) ∧ es ≠ [] ∧ allDigits es) :
    gpfExp neg ids fds ep ≠ FloatParse.syntaxErr := by
  rcases hep with rfl | ⟨e0, sg, es, rfl, he0, hsg, hes, hdig⟩
  · exact gpfFinish_ne neg ids fds 0
  · obtain ⟨d0, ds0, rfl⟩ : ∃ d0 ds0, es = d0 :: ds0 := by
      match es, hes with
      | d0 :: ds0, _ => exact ⟨d0, ds0, rfl⟩
    have hd0 : isDigitByte d0 = true := hdig d0 (by simp)
    have hd045 : d0 ≠ 45 := by rw [isDigitByte] at hd0; simp at hd0; omega
    have hd043 : d0 ≠ 43 := by rw [isDigitByte] at hd0; simp at hd0; omega
    have hrun : digitRun (d0 :: ds0) = (d0 :: ds0, []) := by
      have := digitRun_exact (d0 :: ds0) [] hdig rfl
      simpa using this
    have hsv : ∃ bs, expSign (sg ++ (d0 :: ds0)) = (bs, d0 :: ds0) := by
      rcases hsg with rfl | rfl | rfl
      · refine ⟨false, ?_⟩
        rw [List.nil_append, expSign, if_neg hd045, if_neg hd043]
      · refine ⟨false, ?_⟩
        rw [List.cons_append, List.nil_append, expSign]
        norm_num
      · refine ⟨true, ?_⟩
        rw [List.cons_append, List.nil_append, expSign, if_pos rfl]
    obtain ⟨bs, hsv⟩ := hsv
    rw [gpfExp.eq_def]
    simp only [hsv, hrun, if_pos he0, List.isEmpty_cons]
    rw [if_neg (by simp)]
    exact gpfFinish_ne neg ids fds _

theorem gpfFrac_shape {fp ep : List Nat} (neg : Bool) (ids : List Nat)
    (hfp : fp = [] ∨ ∃ fs, fp = 46 :: fs ∧ fs ≠ [] ∧ allDigits fs)
    (hep : ep = [] ∨ ∃ e0 sg es, ep = e0 :: (sg ++ es) ∧ (e0 = 101 ∨ e0 = 69) ∧
      (sg = [] ∨ sg = [43] ∨ sg = [45]) ∧ es ≠ [] ∧ allDigits es) :
    gpfFrac neg ids (fp ++ ep) ≠ FloatParse.syntaxErr := by
  have hepD : isDecimalDigitS ep = false := by
    rcases hep with rfl | ⟨e0, sg, es, rfl, he0, -, -, -⟩
    · rfl
    · rw [isDecimalDigitS]; rcases he0 with rfl | rfl <;> decide
  rcases hfp with rfl | ⟨fs, rfl, hfs, hdig⟩
  · rw [List.nil_append]
    rcases hep with rfl | ⟨e0, sg, es, hepE, he0, hsg, hes, hdigE⟩
    · rw [gpfFrac]
      exact gpfExp_shape neg ids [] (Or.inl rfl)
    · subst hepE
      rw [gpfFrac]
      rw [if_neg (by rcases he0 with rfl | rfl <;> omega)]
      exact gpfExp_shape neg ids [] (Or.inr ⟨e0, sg, es, rfl, he0, hsg, hes, hdigE⟩)
  · rw [List.cons_append, gpfFrac, if_pos rfl, digitRun_exact fs ep hdig hepD]
    obtain ⟨f0, fs0, rfl⟩ : ∃ f0 fs0, fs = f0 :: fs0 := by
      match fs, hfs with
      | f0 :: fs0, _ => exact ⟨f0, fs0, rfl⟩
    rw [if_neg (by simp)]
    exact gpfExp_shape neg ids (f0 :: fs0) hep

theorem goParseFloat_shape {sgn ip fp ep : List Nat} (hs : NumShape sgn ip fp ep) :
    goParseFloat (sgn ++ ip ++ fp ++ ep) ≠ FloatParse.syntaxErr := by
  obtain ⟨hsgn, hip, hfp, hep⟩ := hs
  have hipDig : allDigits ip := by
    rcases hip with rfl | ⟨c, ds, rfl, hc1, hc2, hds⟩
    · intro d hd; simp at hd; subst hd; rfl
    · intro d hd
      rcases List.mem_cons.mp hd with rfl | hd
      · rw [isDigitByte]; simp; omega
      · exact hds d hd
  have hnext : isDecimalDigitS (fp ++ ep) = false := isDecimalDigitS_append_shape hfp hep
  obtain ⟨h0, tip, rfl⟩ : ∃ h0 tip, ip = h0 :: tip := by
    rcases hip with rfl | ⟨c, ds, rfl, -⟩
    · exact ⟨48, [], rfl⟩
    · exact ⟨c, ds, rfl⟩
  have hd0 : isDigitByte h0 = true := hipDig h0 (by simp)
  have hd045 : h0 ≠ 45 := by rw [isDigitByte] at hd0; simp at hd0; omega
  have hd043 : h0 ≠ 43 := by rw [isDigitByte] at hd0; simp at hd0; omega
  have hrun : digitRun ((h0 :: tip) ++ (fp ++ ep)) = (h0 :: tip, fp ++ ep) :=
    digitRun_exact (h0 :: tip) (fp ++ ep) hipDig hnext
  have hcore : goParseFloatCore false ((h0 :: tip) ++ (fp ++ ep)) ≠ .syntaxErr ∧
      goParseFloatCore true ((h0 :: tip) ++ (fp ++ ep)) ≠ .syntaxErr := by
    constructor <;>
      { rw [goParseFloatCore]
        simp only [hrun]
        rw [if_neg (by simp)]
        exact gpfFrac_shape _ (h0 :: tip) hfp hep }
  rcases hsgn with rfl | rfl
  · rw [List.nil_append, List.append_assoc, List.cons_append, goParseFloat,
      if_neg hd045, if_neg hd043]
    rw [← List.cons_append]
    exact hcore.1
  · rw [List.append_assoc, List.append_assoc]
    rw [List.singleton_append, goParseFloat, if_pos rfl]
    have h2 := hcore.2
    simpa [List.append_assoc, List.cons_append] using h2

/-! ## Claims -/

/-- Claim C5: every built-in string-keyed map is emitted with its keys in
lexicographically ascending (non-descending; keys are distinct in a Go map)
order, and concretely encoding the mapping `{"b":1,"a":2}` produces exactly
the text `{"a":2,"b":1}` with no extra whitespace. -/
theorem claim_C5_sorted_keys :
    (∀ pairs : List (List Nat × GoVal),
      ((sortPairs pairs).map Prod.fst).Pairwise (fun a b => strLt b a = false) ∧
      ((sortPairs pairs).map Prod.fst).Perm (pairs.map Prod.fst)) ∧
    Marshal (.mapV [([98], .intV 1), ([97], .intV 2)]) [] =
      ([123, 34, 97, 34, 58, 50, 44, 34, 98, 34, 58, 49, 125], none) := by
  constructor
  · intro pairs
    constructor
    · exact (sortPairs_pairwise pairs).map Prod.fst (fun a b h => h)
    · exact (sortPairs_perm pairs).map Prod.fst
  · decide

/-- Claim C8: the single-pass string escaper emits, byte for byte, exactly
the spec's rule — named two-character escapes for backspace, form feed,
newline, carriage return, tab, backslash and quote; `\u00XX` with lowercase
hex for every other byte below 0x20; the forward slash and all other bytes
(including multi-byte UTF-8 sequences) unchanged. -/
theorem claim_C8_scramble : ∀ s : List Nat,
    scrambleStr s = s.flatMap specEscapeByte := by
  intro s
  rw [scrambleStr]
  by_cases h : s.isEmpty
  · rw [if_pos h]
    rw [List.isEmpty_iff] at h
    subst h
    rfl
  · rw [if_neg h, scrambleAux_spec s s.length 0 0 (by omega) le_rfl, sliceBC_self,
      List.nil_append, List.drop_zero]
    exact List.flatMap_congr (fun x _ => escapeOf_spec x)

/-- Claim C7: after reading a top-level value, `Finalize` succeeds iff every
remaining byte is whitespace (space, tab, CR, LF); any other trailing byte
fails with the structural unexpected-token error. -/
theorem claim_C7_finalize : ∀ s : List Nat,
    ((finalizeS s = none) ↔ (∀ b ∈ s, isWs b = true)) ∧
    (finalizeS s = none ∨ finalizeS s = some JErr.unexpectedToken) := by
  intro s
  have h1 : isEOF (skipWs s) = true ↔ ∀ b ∈ s, isWs b = true := by
    rw [isEOF, List.isEmpty_iff, skipWs_nil_iff]
  by_cases h : isEOF (skipWs s)
  · constructor
    · rw [finalizeS, if_pos h]
      simp only [true_iff]
      exact h1.mp h
    · left; rw [finalizeS, if_pos h]
  · constructor
    · rw [finalizeS, if_neg h]
      constructor
      · intro hc; exact ((Option.some_ne_none _) hc).elim
      · intro hall; exact absurd (h1.mpr hall) h
    · right; rw [finalizeS, if_neg h]

/-- Claim C6: on duplicate object keys the last occurrence wins — Go map
assignment overwrites the previous binding, and concretely
`decode({"a":1,"a":2})` yields the mapping `{"a": 2.0}`. -/
theorem claim_C6_duplicate_keys :
    (∀ (m : List (List Nat × JValue)) (k : List Nat) (v : JValue),
      lookupKey k (mapInsert m k v) = some v) ∧
    readValueDoc [123, 34, 97, 34, 58, 49, 44, 34, 97, 34, 58, 50, 125] =
      .ok (.obj [([97], .num 2)], []) := by
  exact ⟨lookupKey_mapInsert, rfl⟩

/-- Claim C4 (code bug): the spec says a nil reference marshals to exactly
`null`, but `marshalValue` on a typed nil pointer emits `null` twice:
decorator.go:148-150 calls `marshalNull()` without returning, and the unwrap
loop then emits `null` again, so `Marshal((*int)(nil))` returns the invalid
text `nullnull`. -/
theorem claim_C4_nil_pointer :
    Marshal GoVal.ptrNil [] = (nullTok ++ nullTok, none) ∧
    nullTok ++ nullTok ≠ nullTok ∧
    Marshal GoVal.nilAny [] = (nullTok, none) ∧
    Marshal (GoVal.ptrTo GoVal.ptrNil) [] = (nullTok, none) := by
  refine ⟨by decide, by decide, by decide, by decide⟩

/-- Claim C10: whenever `Marshal` reports an error — an invalid option, an
unsupported type, a failing capability, or a non-finite float — the string
it returns is empty, never a partial JSON prefix. -/
theorem claim_C10_empty_on_error (g : GoVal) (opts : List MOpt)
    (h : (Marshal g opts).2 ≠ none) : (Marshal g opts).1 = [] := by
  rw [Marshal] at h ⊢
  match hp : parseMarshalOptions opts with
  | .error e => simp [hp]
  | .ok p =>
    match hm : marshalValue p g with
    | .error e => simp [hp, hm]
    | .ok out => simp [hp, hm] at h

/-- Witness for C10 at a concrete input (an unsupported channel type). -/
theorem claim_C10_witness :
    (Marshal (GoVal.unsupported [99]) []).2 ≠ none ∧
    (Marshal (GoVal.unsupported [99]) []).1 = [] :=
  ⟨by decide, claim_C10_empty_on_error (GoVal.unsupported [99]) [] (by decide)⟩

/-- Claim C9: the decorator records only the first error, and once the latch
is set every subsequent operation is a no-op — `put` writes nothing and the
recorded error never changes. -/
theorem claim_C9_error_latch :
    (∀ (ops : List DecOp) (d : Decor) (e : MErr), d.err = some e →
      applyOps ops d = d) ∧
    (∀ (ops : List DecOp) (d : Decor), d.err = none →
      (applyOps ops d).err = firstErr ops) := by
  constructor
  · intro ops d e hd
    exact applyOps_latched ops d (by simp [hd])
  · intro ops d hd
    exact applyOps_firstErr ops d hd

theorem slowPath_quote (rest buf : List Nat) :
    slowPath (34 :: rest) buf = .ok (buf, rest) := by
  rw [slowPath.eq_def]
  norm_num

/-! ### Strings scramble and parse back (claim C1) -/

theorem scrambleStr_flatMap (s : List Nat) :
    scrambleStr s = s.flatMap escByte := by
  rw [scrambleStr]
  by_cases h : s.isEmpty
  · rw [if_pos h]
    rw [List.isEmpty_iff] at h
    subst h
    rfl
  · rw [if_neg h, scrambleAux_spec s s.length 0 0 (by omega) le_rfl, sliceBC_self,
      List.nil_append, List.drop_zero]
    rfl

theorem escByte_clean {b : Nat} (h32 : 32 ≤ b) (h34 : b ≠ 34) (h92 : b ≠ 92) :
    escByte b = [b] := by
  rw [escByte, escapeOf]
  rw [if_neg (by omega), if_neg (by omega), if_neg (by omega), if_neg (by omega),
    if_neg (by omega), if_neg h92, if_neg h34, if_neg (by omega), if_neg (by omega)]
  rfl

theorem escByte_esc {b : Nat} (h : b < 32 ∨ b = 34 ∨ b = 92) :
    ∃ t, escByte b = 92 :: t := by
  rcases h with h | rfl | rfl
  · interval_cases b <;> exact ⟨_, rfl⟩
  · exact ⟨_, rfl⟩
  · exact ⟨_, rfl⟩

theorem flatMap_clean {s : List Nat}
    (h : ∀ b ∈ s, 32 ≤ b ∧ b ≠ 34 ∧ b ≠ 92) :
    s.flatMap escByte = s := by
  induction s with
  | nil => rfl
  | cons b bs ih =>
    obtain ⟨h32, h34, h92⟩ := h b (by simp)
    rw [List.flatMap_cons, escByte_clean h32 h34 h92,
      ih (fun x hx => h x (by simp [hx])), List.singleton_append]

theorem fastScan_clean : ∀ (s rest : List Nat),
    (∀ b ∈ s, 32 ≤ b ∧ b ≠ 34 ∧ b ≠ 92) →
    fastScan (s ++ 34 :: rest) = FastRes.found s rest := by
  intro s
  induction s with
  | nil =>
    intro rest _
    rw [List.nil_append, fastScan, if_neg (by omega), if_neg (by omega),
      if_pos rfl]
  | cons c cs ih =>
    intro rest hall
    obtain ⟨h32, h34, h92⟩ := hall c (by simp)
    rw [List.cons_append, fastScan, if_neg (by omega), if_neg h92, if_neg h34,
      ih rest (fun b hb => hall b (by simp [hb]))]

theorem fastScan_escaped : ∀ (s t : List Nat),
    (¬ ∀ b ∈ s, 32 ≤ b ∧ b ≠ 34 ∧ b ≠ 92) →
    fastScan (s.flatMap escByte ++ t) = FastRes.escaped := by
  intro s
  induction s with
  | nil => intro t h; exact absurd (by simp) h
  | cons c cs ih =>
    intro t hall
    by_cases hc : 32 ≤ c ∧ c ≠ 34 ∧ c ≠ 92
    · have hcs : ¬ ∀ b ∈ cs, 32 ≤ b ∧ b ≠ 34 ∧ b ≠ 92 := by
        intro h2
        exact hall (fun b hb => by
          rcases List.mem_cons.mp hb with rfl | hb2
          · exact hc
          · exact h2 b hb2)
      rw [List.flatMap_cons, escByte_clean hc.1 hc.2.1 hc.2.2,
        List.singleton_append, List.cons_append, fastScan,
        if_neg (by omega), if_neg hc.2.2, if_neg hc.2.1, ih t hcs]
    · obtain ⟨t2, ht2⟩ : ∃ t2, escByte c = 92 :: t2 :=
        escByte_esc (by omega)
      rw [List.flatMap_cons, ht2, List.cons_append, List.cons_append, fastScan,
        if_neg (by omega), if_pos rfl]

theorem slowPath_step (b : Nat) : ∀ (t buf : List Nat),
    slowPath (escByte b ++ t) buf = slowPath t (buf ++ [b]) := by
  intro t buf
  by_cases h32 : b < 32
  · interval_cases b <;>
      (simp [escByte, escapeOf, slowPath, parseUnicode, hexVal, utf8Encode];
        try (rw [slowPath.eq_def]; norm_num))
  · by_cases h34 : b = 34
    · subst h34
      simp only [escByte, escapeOf]
      norm_num
      rw [slowPath.eq_def]
      norm_num
    · by_cases h92 : b = 92
      · subst h92
        simp only [escByte, escapeOf]
        norm_num
        rw [slowPath.eq_def]
        norm_num
      · rw [escByte_clean (by omega) h34 h92, List.singleton_append,
          slowPath.eq_def]
        simp only []
        rw [if_neg (by omega : ¬ b = 0), if_neg (by omega : ¬ b ≤ 0x1F),
          if_neg h34, if_neg h92]

theorem slowPath_flat : ∀ (s buf rest : List Nat),
    slowPath (s.flatMap escByte ++ (34 :: rest)) buf = .ok (buf ++ s, rest) := by
  intro s
  induction s with
  | nil =>
    intro buf rest
    rw [List.flatMap_nil, List.nil_append, slowPath_quote, List.append_nil]
  | cons b bs ih =>
    intro buf rest
    rw [List.flatMap_cons, List.append_assoc, slowPath_step, ih]
    simp [List.append_assoc]

/-! ### Reader plumbing (claim C1) -/

theorem skipWs_not (c : Nat) (t : List Nat) (h : isWs c = false) :
    skipWs (c :: t) = c :: t := by
  rw [skipWs, if_neg (by simp [h])]

theorem skipSeq_pref (seq rest : List Nat) :
    skipSeq seq (seq ++ rest) = (true, rest) := by
  rw [skipSeq, if_pos (List.isPrefixOf_iff_prefix.mpr (List.prefix_append seq rest)),
    List.drop_left]

theorem mapInsert_notmem : ∀ (m : List (List Nat × JValue)) (k : List Nat)
    (v : JValue), k ∉ m.map Prod.fst → mapInsert m k v = m ++ [(k, v)] := by
  intro m k v
  induction m with
  | nil => intro _; rfl
  | cons p rest ih =>
    obtain ⟨k2, v2⟩ := p
    intro h
    rw [List.map_cons, List.mem_cons] at h
    push_neg at h
    rw [mapInsert, if_neg (fun he => h.1 he.symm), ih h.2, List.cons_append]

theorem insertPairJ_ne_nil (p : List Nat × JValue) :
    ∀ l, insertPairJ p l ≠ [] := by
  intro l
  match l with
  | [] => simp [insertPairJ]
  | q :: qs =>
    rw [insertPairJ]
    by_cases h : strLt p.1 q.1
    · rw [if_pos h]; simp
    · rw [if_neg h]; simp

theorem skipSeq_cons4 (a b c d : Nat) (rest : List Nat) :
    skipSeq [a, b, c, d] (a :: b :: c :: d :: rest) = (true, rest) := by
  have := skipSeq_pref [a, b, c, d] rest
  simpa using this

theorem skipSeq_cons5 (a b c d e : Nat) (rest : List Nat) :
    skipSeq [a, b, c, d, e] (a :: b :: c :: d :: e :: rest) = (true, rest) := by
  have := skipSeq_pref [a, b, c, d, e] rest
  simpa using this

theorem insertPairJ_perm (p : List Nat × JValue) :
    ∀ l, (insertPairJ p l).Perm (p :: l) := by
  intro l
  induction l with
  | nil => simp [insertPairJ]
  | cons q qs ih =>
    rw [insertPairJ]
    by_cases h : strLt p.1 q.1
    · rw [if_pos h]
    · rw [if_neg h]
      exact (ih.cons q).trans (List.Perm.swap p q qs)

theorem sortPairsJ_perm : ∀ l, (sortPairsJ l).Perm l := by
  intro l
  induction l with
  | nil => simp [sortPairsJ]
  | cons p ps ih =>
    rw [sortPairsJ]
    exact (insertPairJ_perm p (sortPairsJ ps)).trans (ih.cons p)

theorem sizeJF_perm {l l' : List (List Nat × JValue)} (h : l.Perm l') :
    sizeJF l = sizeJF l' := by
  induction h with
  | nil => rfl
  | cons x _ ih =>
    obtain ⟨k, v⟩ := x
    rw [sizeJF, sizeJF, ih]
  | swap x y l =>
    obtain ⟨k1, v1⟩ := x
    obtain ⟨k2, v2⟩ := y
    rw [sizeJF, sizeJF, sizeJF, sizeJF]
    omega
  | trans _ _ ih1 ih2 => rw [ih1, ih2]

theorem JOkBF_mem : ∀ {ps : List (List Nat × JValue)},
    JOkBF ps = true ↔ ∀ p ∈ ps, JOkB p.2 = true := by
  intro ps
  induction ps with
  | nil => simp [JOkBF]
  | cons p rest ih =>
    obtain ⟨k, v⟩ := p
    rw [JOkBF]
    constructor
    · rintro h p2 hp2
      rw [Bool.and_eq_true] at h
      rcases List.mem_cons.mp hp2 with rfl | hmem
      · exact h.1
      · exact ih.mp h.2 p2 hmem
    · intro h
      rw [Bool.and_eq_true]
      exact ⟨h (k, v) (by simp), ih.mpr (fun p2 hp2 => h p2 (by simp [hp2]))⟩

theorem JOkBL_mem : ∀ {vs : List JValue},
    JOkBL vs = true ↔ ∀ v ∈ vs, JOkB v = true := by
  intro vs
  induction vs with
  | nil => simp [JOkBL]
  | cons v rest ih =>
    rw [JOkBL]
    constructor
    · rintro h v2 hv2
      rw [Bool.and_eq_true] at h
      rcases List.mem_cons.mp hv2 with rfl | hmem
      · exact h.1
      · exact ih.mp h.2 v2 hmem
    · intro h
      rw [Bool.and_eq_true]
      exact ⟨h v (by simp), ih.mpr (fun v2 hv2 => h v2 (by simp [hv2]))⟩

theorem normJF_keys : ∀ fs : List (List Nat × JValue),
    (normJF fs).map Prod.fst = fs.map Prod.fst := by
  intro fs
  induction fs with
  | nil => rfl
  | cons p rest ih =>
    obtain ⟨k, v⟩ := p
    rw [normJF, List.map_cons, List.map_cons, ih]

theorem toGoValF_insert (k1 : List Nat) (v1 : JValue) :
    ∀ l, toGoValF (insertPairJ (k1, v1) l) =
      insertPair (k1, toGoVal v1) (toGoValF l) := by
  intro l
  induction l with
  | nil => rfl
  | cons q qs ih =>
    obtain ⟨k2, v2⟩ := q
    by_cases h : strLt k1 k2
    · simp [insertPairJ, insertPair, toGoValF, h]
    · simp [insertPairJ, insertPair, toGoValF, h, ih]

theorem toGoValF_sort : ∀ fs, sortPairs (toGoValF fs) = toGoValF (sortPairsJ fs) := by
  intro fs
  induction fs with
  | nil => rfl
  | cons p ps ih =>
    obtain ⟨k, v⟩ := p
    rw [sortPairsJ, toGoValF, sortPairs, ih, toGoValF_insert]

theorem normJF_insert (k1 : List Nat) (v1 : JValue) :
    ∀ l, normJF (insertPairJ (k1, v1) l) =
      insertPairJ (k1, normJ v1) (normJF l) := by
  intro l
  induction l with
  | nil => rfl
  | cons q qs ih =>
    obtain ⟨k2, v2⟩ := q
    by_cases h : strLt k1 k2
    · simp [insertPairJ, normJF, h]
    · simp [insertPairJ, normJF, h, ih]

theorem normJF_sort : ∀ fs, sortPairsJ (normJF fs) = normJF (sortPairsJ fs) := by
  intro fs
  induction fs with
  | nil => rfl
  | cons p ps ih =>
    obtain ⟨k, v⟩ := p
    rw [sortPairsJ, normJF, sortPairsJ, ih, normJF_insert]

theorem sizeJ_pos : ∀ v : JValue, 1 ≤ sizeJ v := by
  intro v
  cases v <;> simp [sizeJ]

theorem JOkB_num_iff {q : ℚ} : JOkB (.num q) = true ↔
    numGrammar (fmtG 6 q) = some [] ∧ goParseFloat (fmtG 6 q) = FloatParse.val q := by
  rw [JOkB, Bool.and_eq_true, decide_eq_true_eq, decide_eq_true_eq]

theorem JOkB_obj_iff {fs : List (List Nat × JValue)} : JOkB (.obj fs) = true ↔
    (fs.map Prod.fst).Nodup ∧ JOkBF fs = true := by
  rw [JOkB, Bool.and_eq_true, decide_eq_true_eq]

/-- Every encoded value starts with a byte that is not whitespace and not
the first byte of a BOM. -/
theorem encJ_head : ∀ {v : JValue}, JOkB v = true →
    ∃ c cs, encJ v = c :: cs ∧ isWs c = false ∧ c ≠ 0xEF ∧ c ≠ 93 := by
  intro v h
  match v with
  | .null => exact ⟨110, [117, 108, 108], rfl, rfl, by omega, by omega⟩
  | .bool b =>
    cases b
    · exact ⟨102, [97, 108, 115, 101], rfl, rfl, by omega, by omega⟩
    · exact ⟨116, [114, 117, 101], rfl, rfl, by omega, by omega⟩
  | .num q =>
    obtain ⟨h1, -⟩ := JOkB_num_iff.mp h
    obtain ⟨c, cs, he, hc⟩ := numLit_head h1
    refine ⟨c, cs, ?_, ?_, ?_, ?_⟩
    · rw [encJ, he]
    · rcases hc with rfl | hd
      · rfl
      · rw [isDigitByte] at hd
        simp at hd
        simp [isWs]
        omega
    · rcases hc with rfl | hd
      · omega
      · rw [isDigitByte] at hd
        simp at hd
        omega
    · rcases hc with rfl | hd
      · omega
      · rw [isDigitByte] at hd
        simp at hd
        omega
  | .str s =>
    refine ⟨34, scrambleStr s ++ [34], ?_, rfl, by omega, by omega⟩
    rw [encJ, List.append_assoc, List.singleton_append]
  | .arr es =>
    by_cases he : es.isEmpty
    · refine ⟨91, [93], ?_, rfl, by omega, by omega⟩
      rw [encJ, if_pos he]
    · refine ⟨91, encElems es ++ [93], ?_, rfl, by omega, by omega⟩
      rw [encJ, if_neg he, List.append_assoc, List.singleton_append]
  | .obj fs =>
    by_cases he : fs.isEmpty
    · refine ⟨123, [125], ?_, rfl, by omega, by omega⟩
      rw [encJ, if_pos he]
    · refine ⟨123, encMembers fs ++ [125], ?_, rfl, by omega, by omega⟩
      rw [encJ, if_neg he, List.append_assoc, List.singleton_append]

/-- A continuation a value inside a document stops in front of: end of
input, or a separator/closer (`,`, `]`, `}`). -/
def tailOk : List Nat → Prop
  | [] => True
  | c :: _ => c = 44 ∨ c = 93 ∨ c = 125

theorem tailOk_safeHead {r : List Nat} (h : tailOk r) : safeHead r := by
  match r, h with
  | [], _ => trivial
  | c :: cs, h =>
    rcases h with rfl | rfl | rfl <;> exact ⟨rfl, by omega, by omega, by omega⟩

theorem tailOk_skipWs {r : List Nat} (h : tailOk r) : skipWs r = r := by
  match r, h with
  | [], _ => rfl
  | c :: cs, h =>
    rcases h with rfl | rfl | rfl <;> rfl


theorem sizeJ_le_enc_aux : ∀ n : Nat,
    (∀ v : JValue, sizeJ v ≤ n → JOkB v = true → sizeJ v ≤ (encJ v).length) ∧
    (∀ vs : List JValue, sizeJL vs ≤ n → JOkBL vs = true → vs ≠ [] →
      sizeJL vs ≤ (encElems vs).length + 1) ∧
    (∀ ps : List (List Nat × JValue), sizeJF ps ≤ n → JOkBF ps = true → ps ≠ [] →
      sizeJF ps ≤ (encMembers ps).length + 1) := by
  intro n
  induction n with
  | zero =>
    refine ⟨?_, ?_, ?_⟩
    · intro v hv _
      have := sizeJ_pos v
      omega
    · intro vs hvs _ hne
      rcases vs with _ | ⟨v, vs'⟩
      · exact absurd rfl hne
      · rw [sizeJL] at hvs
        have := sizeJ_pos v
        omega
    · intro ps hps _ hne
      rcases ps with _ | ⟨⟨k, v⟩, ps'⟩
      · exact absurd rfl hne
      · rw [sizeJF] at hps
        have := sizeJ_pos v
        omega
  | succ n ih =>
    obtain ⟨ihV, ihL, ihF⟩ := ih
    refine ⟨?_, ?_, ?_⟩
    · intro v hv hok
      cases v with
      | null => decide
      | bool b => cases b <;> decide
      | num q =>
        obtain ⟨h1, -⟩ := JOkB_num_iff.mp hok
        obtain ⟨c, cs, he, -⟩ := numLit_head h1
        rw [show sizeJ (.num q) = 1 from rfl, show encJ (.num q) = fmtG 6 q from rfl,
          he]
        simp
      | str s =>
        rw [show sizeJ (.str s) = 1 from rfl,
          show encJ (.str s) = [34] ++ scrambleStr s ++ [34] from rfl]
        simp
      | arr es =>
        rcases es with _ | ⟨v, vs⟩
        · decide
        · have hok2 : JOkBL (v :: vs) = true := hok
          have hs : sizeJL (v :: vs) ≤ n := by
            rw [show sizeJ (.arr (v :: vs)) = sizeJL (v :: vs) + 1 from rfl] at hv
            omega
          have h2 := ihL (v :: vs) hs hok2 (by simp)
          rw [show sizeJ (.arr (v :: vs)) = sizeJL (v :: vs) + 1 from rfl,
            show encJ (.arr (v :: vs)) = [91] ++ encElems (v :: vs) ++ [93] from rfl]
          simp only [List.length_append, List.length_cons, List.length_nil]
          omega
      | obj fs =>
        rcases fs with _ | ⟨⟨k, w⟩, ps⟩
        · decide
        · obtain ⟨-, hokF⟩ := JOkB_obj_iff.mp hok
          have hs : sizeJF ((k, w) :: ps) ≤ n := by
            rw [show sizeJ (.obj ((k, w) :: ps)) = sizeJF ((k, w) :: ps) + 1
              from rfl] at hv
            omega
          have h2 := ihF ((k, w) :: ps) hs hokF (by simp)
          rw [show sizeJ (.obj ((k, w) :: ps)) = sizeJF ((k, w) :: ps) + 1 from rfl,
            show encJ (.obj ((k, w) :: ps)) =
              [123] ++ encMembers ((k, w) :: ps) ++ [125] from rfl]
          simp only [List.length_append, List.length_cons, List.length_nil]
          omega
    · intro vs hvs hok hne
      rcases vs with _ | ⟨v, vs'⟩
      · exact absurd rfl hne
      · rw [sizeJL] at hvs ⊢
        rw [JOkBL, Bool.and_eq_true] at hok
        have h1 : sizeJ v ≤ (encJ v).length := ihV v (by omega) hok.1
        rw [encElems]
        rcases vs' with _ | ⟨w, ws⟩
        · rw [show sizeJL ([] : List JValue) = 0 from rfl]
          simp only [List.isEmpty_nil, if_true, List.length_append]
          simp
          omega
        · have h2 : sizeJL (w :: ws) ≤ (encElems (w :: ws)).length + 1 :=
            ihL (w :: ws) (by have := sizeJ_pos v; omega) hok.2 (by simp)
          simp only [List.isEmpty_cons, List.length_append, List.length_cons,
            List.length_nil]
          norm_num
          omega
    · intro ps hps hok hne
      rcases ps with _ | ⟨⟨k, v⟩, ps'⟩
      · exact absurd rfl hne
      · rw [sizeJF] at hps ⊢
        rw [JOkBF, Bool.and_eq_true] at hok
        have h1 : sizeJ v ≤ (encJ v).length := ihV v (by omega) hok.1
        rw [encMembers]
        rcases ps' with _ | ⟨p2, ps2⟩
        · rw [show sizeJF ([] : List (List Nat × JValue)) = 0 from rfl]
          simp only [List.isEmpty_nil, if_true, List.length_append]
          simp
          omega
        · have h2 : sizeJF (p2 :: ps2) ≤ (encMembers (p2 :: ps2)).length + 1 :=
            ihF (p2 :: ps2) (by have := sizeJ_pos v; omega) hok.2 (by simp)
          simp only [List.isEmpty_cons, List.length_append, List.length_cons,
            List.length_nil]
          norm_num
          omega

theorem sizeJ_le_enc {v : JValue} (h : JOkB v = true) :
    sizeJ v ≤ (encJ v).length :=
  (sizeJ_le_enc_aux (sizeJ v)).1 v le_rfl h

theorem ne_nil_isEmpty {α : Type} {l : List α} (h : l ≠ []) : l.isEmpty = false := by
  rcases l with _ | ⟨a, l⟩
  · exact absurd rfl h
  · rfl

theorem sizeG_pos : ∀ g : GoVal, 1 ≤ sizeG g := by
  intro g
  cases g <;> simp [sizeG]

theorem sizeGL_pos : ∀ l : List GoVal, 1 ≤ sizeGL l := by
  intro l
  match l with
  | [] => decide
  | v :: vs => rw [sizeGL]; omega

theorem sizeGF_pos : ∀ l : List (List Nat × GoVal), 1 ≤ sizeGF l := by
  intro l
  match l with
  | [] => decide
  | (k, v) :: ps => rw [sizeGF]; omega

theorem sizeGF_perm {l l' : List (List Nat × GoVal)} (h : l.Perm l') :
    sizeGF l = sizeGF l' := by
  induction h with
  | nil => rfl
  | cons x _ ih =>
    obtain ⟨k, v⟩ := x
    rw [sizeGF, sizeGF, ih]
  | swap x y l =>
    obtain ⟨k1, v1⟩ := x
    obtain ⟨k2, v2⟩ := y
    rw [sizeGF, sizeGF, sizeGF, sizeGF]
    omega
  | trans _ _ ih1 ih2 => rw [ih1, ih2]

/-- The writer turns a reader-fragment value into exactly the composed
encoding of its key-normalized form. -/
theorem marshalGo_enc : ∀ fuel : Nat,
    (∀ v : JValue, sizeG (toGoVal v) ≤ fuel →
      marshalGo 6 fuel (.val false (toGoVal v)) = .ok (encJ (normJ v))) ∧
    (∀ (vs : List JValue) (first : Bool), sizeGL (toGoValL vs) ≤ fuel →
      marshalGo 6 fuel (.elems (toGoValL vs) first) =
        .ok (if vs.isEmpty then []
          else (if first then [91] else [44]) ++ encElems (normJL vs))) ∧
    (∀ (ps : List (List Nat × JValue)) (first : Bool),
      sizeGF (toGoValF ps) ≤ fuel →
      marshalGo 6 fuel (.fields (toGoValF ps) first) =
        .ok (if ps.isEmpty then []
          else (if first then [123] else [44]) ++ encMembers (normJF ps))) := by
  intro fuel
  induction fuel with
  | zero =>
    refine ⟨?_, ?_, ?_⟩
    · intro v hv
      have := sizeG_pos (toGoVal v)
      omega
    · intro vs first hvs
      have := sizeGL_pos (toGoValL vs)
      omega
    · intro ps first hps
      have := sizeGF_pos (toGoValF ps)
      omega
  | succ n ih =>
    obtain ⟨ihV, ihL, ihF⟩ := ih
    refine ⟨?_, ?_, ?_⟩
    · intro v hv
      cases v with
      | null => rfl
      | bool b => rfl
      | num q => rfl
      | str s => rfl
      | arr es =>
        have hs : sizeGL (toGoValL es) ≤ n := by
          rw [show sizeG (toGoVal (.arr es)) = sizeGL (toGoValL es) + 1 from rfl]
            at hv
          omega
        have hB := ihL es true hs
        rw [show toGoVal (.arr es) = .arrV (toGoValL es) from rfl, marshalGo]
        simp only [hB]
        rcases es with _ | ⟨v, vs⟩
        · rfl
        · rw [show (toGoValL (v :: vs)).isEmpty = false from rfl]
          simp only [List.isEmpty_cons, if_neg]
          rw [show normJ (.arr (v :: vs)) = .arr (normJL (v :: vs)) from rfl]
          rw [show normJL (v :: vs) = normJ v :: normJL vs from rfl]
          rw [show encJ (.arr (normJ v :: normJL vs)) =
            [91] ++ encElems (normJ v :: normJL vs) ++ [93] from rfl]
          simp
      | obj fs =>
        have hperm : sizeGF (toGoValF (sortPairsJ fs)) = sizeGF (toGoValF fs) := by
          rw [← toGoValF_sort]
          exact sizeGF_perm (sortPairs_perm (toGoValF fs))
        have hs : sizeGF (toGoValF (sortPairsJ fs)) ≤ n := by
          rw [hperm]
          rw [show sizeG (toGoVal (.obj fs)) = sizeGF (toGoValF fs) + 1 from rfl]
            at hv
          omega
        have hC := ihF (sortPairsJ fs) true hs
        rw [show toGoVal (.obj fs) = .mapV (toGoValF fs) from rfl, marshalGo]
        rw [toGoValF_sort fs]
        simp only [hC]
        rcases fs with _ | ⟨⟨k, w⟩, ps⟩
        · rfl
        · have hsne : sortPairsJ ((k, w) :: ps) ≠ [] := by
            rw [sortPairsJ]
            exact insertPairJ_ne_nil _ _
          obtain ⟨p0, ps0, hE⟩ := List.exists_cons_of_ne_nil hsne
          rw [show normJ (.obj ((k, w) :: ps)) =
            .obj (sortPairsJ (normJF ((k, w) :: ps))) from rfl, normJF_sort, hE]
          obtain ⟨k0, w0⟩ := p0
          simp [encJ, normJF, toGoValF, List.append_assoc]
    · intro vs first hvs
      rcases vs with _ | ⟨v, vs'⟩
      · rw [show toGoValL ([] : List JValue) = [] from rfl, marshalGo]
        rfl
      · rw [show toGoValL (v :: vs') = toGoVal v :: toGoValL vs' from rfl] at hvs ⊢
        rw [sizeGL] at hvs
        have h1 := ihV v (by have := sizeGL_pos (toGoValL vs'); omega)
        have h2 := ihL vs' false (by have := sizeG_pos (toGoVal v); omega)
        rw [marshalGo]
        simp only [h1, h2]
        rcases vs' with _ | ⟨w, ws⟩
        · cases first <;> simp [encElems, normJL]
        · rw [show normJL (v :: w :: ws) = normJ v :: normJ w :: normJL ws
            from rfl]
          cases first <;> simp [encElems, List.append_assoc]
    · intro ps first hps
      rcases ps with _ | ⟨⟨k, w⟩, ps'⟩
      · rw [show toGoValF ([] : List (List Nat × JValue)) = [] from rfl, marshalGo]
        rfl
      · rw [show toGoValF ((k, w) :: ps') = (k, toGoVal w) :: toGoValF ps'
          from rfl] at hps ⊢
        rw [sizeGF] at hps
        have h1 := ihV w (by have := sizeGF_pos (toGoValF ps'); omega)
        have h2 := ihF ps' false (by have := sizeG_pos (toGoVal w); omega)
        rw [marshalGo]
        simp only [h1, h2]
        rcases ps' with _ | ⟨p2, ps2⟩
        · cases first <;> simp [encMembers, normJF]
        · obtain ⟨k2, w2⟩ := p2
          rw [show normJF ((k, w) :: (k2, w2) :: ps2) =
            (k, normJ w) :: (k2, normJ w2) :: normJF ps2 from rfl]
          cases first <;> simp [encMembers, List.append_assoc]

/-- `Marshal` with default options on a reader-fragment value: the composed
encoding of the key-normalized value, no error. -/
theorem Marshal_enc (v : JValue) :
    Marshal (toGoVal v) [] = (encJ (normJ v), none) := by
  rw [Marshal.eq_def, show parseMarshalOptions [] = Except.ok 6 from rfl]
  simp only []
  have hM := (marshalGo_enc (sizeG (toGoVal v) + 1)).1 v (by omega)
  rw [marshalValue, hM]

theorem parseString_rt (s rest : List Nat) :
    parseString (34 :: (scrambleStr s ++ (34 :: rest))) = .ok (s, rest) := by
  rw [parseString.eq_def]
  simp only []
  by_cases hall : ∀ b ∈ s, 32 ≤ b ∧ b ≠ 34 ∧ b ≠ 92
  · have hid : scrambleStr s = s := by
      rw [scrambleStr_flatMap]
      exact flatMap_clean hall
    rw [hid, fastScan_clean s rest hall]
  · rw [scrambleStr_flatMap, fastScan_escaped s _ hall, slowPath_flat]
    rw [List.nil_append]

/-- The reader parses the composed encoding of any round-trippable value
back to exactly that value, leaving the continuation untouched. -/
theorem readGo_enc : ∀ fuel : Nat,
    (∀ (v : JValue) (rest : List Nat), JOkB v = true → tailOk rest →
      sizeJ v < fuel →
      readGo fuel (.val (encJ v ++ rest)) = .ok (v, rest)) ∧
    (∀ (m ps : List (List Nat × JValue)) (rest : List Nat),
      JOkBF ps = true → (m.map Prod.fst ++ ps.map Prod.fst).Nodup →
      tailOk rest → sizeJF ps < fuel → ps ≠ [] →
      readGo fuel (.members m (encMembers ps ++ (125 :: rest))) =
        .ok (.obj (m ++ ps), rest)) ∧
    (∀ (acc vs : List JValue) (rest : List Nat),
      JOkBL vs = true → tailOk rest → sizeJL vs < fuel → vs ≠ [] →
      readGo fuel (.elems acc (encElems vs ++ (93 :: rest))) =
        .ok (.arr (acc ++ vs), rest)) := by
  intro fuel
  induction fuel with
  | zero =>
    refine ⟨?_, ?_, ?_⟩
    · intro v rest _ _ hv
      omega
    · intro m ps rest _ _ _ hps _
      omega
    · intro acc vs rest _ _ hvs _
      omega
  | succ n ih =>
    obtain ⟨ihV, ihM, ihE⟩ := ih
    refine ⟨?_, ?_, ?_⟩
    · intro v rest hok hr hv
      cases v with
      | null =>
        have harg : encJ .null ++ rest = 110 :: 117 :: 108 :: 108 :: rest := rfl
        rw [harg, readGo, skipWs_not 110 (117 :: 108 :: 108 :: rest) rfl]
        simp only []
        norm_num
        rw [skipSeq_cons4]
      | bool b =>
        cases b
        · have harg : encJ (.bool false) ++ rest =
              102 :: 97 :: 108 :: 115 :: 101 :: rest := rfl
          rw [harg, readGo, skipWs_not 102 (97 :: 108 :: 115 :: 101 :: rest) rfl]
          simp only []
          norm_num
          rw [skipSeq_cons5]
        · have harg : encJ (.bool true) ++ rest =
              116 :: 114 :: 117 :: 101 :: rest := rfl
          rw [harg, readGo, skipWs_not 116 (114 :: 117 :: 101 :: rest) rfl]
          simp only []
          norm_num
          rw [skipSeq_cons4]
      | num q =>
        obtain ⟨h1, h2⟩ := JOkB_num_iff.mp hok
        obtain ⟨c, cs, he, hc⟩ := numLit_head h1
        have hcr : c = 45 ∨ (48 ≤ c ∧ c ≤ 57) := by
          rcases hc with rfl | hd
          · exact Or.inl rfl
          · rw [isDigitByte] at hd
            simp at hd
            exact Or.inr hd
        have harg : encJ (.num q) ++ rest = c :: (cs ++ rest) := by
          rw [show encJ (.num q) = fmtG 6 q from rfl, he, List.cons_append]
        have hws : isWs c = false := by
          simp [isWs]
          omega
        rw [harg, readGo, skipWs_not c (cs ++ rest) hws]
        simp only []
        rw [if_neg (by omega : ¬ c = 123), if_neg (by omega : ¬ c = 91),
          if_neg (by omega : ¬ c = 34), if_neg (by omega : ¬ c = 116),
          if_neg (by omega : ¬ c = 102), if_neg (by omega : ¬ c = 110),
          if_pos hc]
        rw [show c :: (cs ++ rest) = (c :: cs) ++ rest from
          (List.cons_append c cs rest).symm, ← he,
          parseNumber_complete rest h1 h2 (tailOk_safeHead hr)]
      | str s =>
        have harg : encJ (.str s) ++ rest =
            34 :: (scrambleStr s ++ (34 :: rest)) := by
          rw [show encJ (.str s) = [34] ++ scrambleStr s ++ [34] from rfl]
          simp [List.append_assoc]
        rw [harg, readGo, skipWs_not 34 (scrambleStr s ++ (34 :: rest)) rfl]
        simp only []
        norm_num
        rw [parseString_rt]
      | arr es =>
        rcases es with _ | ⟨v1, vs⟩
        · have harg : encJ (.arr []) ++ rest = 91 :: 93 :: rest := rfl
          rw [harg, readGo, skipWs_not 91 (93 :: rest) rfl]
          simp only []
          norm_num
          rw [skipWs_not 93 rest rfl, skipByteS_cons_eq]
        · have hokL : JOkBL (v1 :: vs) = true := hok
          have hvOk : JOkB v1 = true := by
            rw [JOkBL, Bool.and_eq_true] at hokL
            exact hokL.1
          have harg : encJ (.arr (v1 :: vs)) ++ rest =
              91 :: (encElems (v1 :: vs) ++ (93 :: rest)) := by
            rw [show encJ (.arr (v1 :: vs)) =
              [91] ++ encElems (v1 :: vs) ++ [93] from rfl]
            simp [List.append_assoc]
          obtain ⟨d, ds, hdds, hwd, hd93⟩ :
              ∃ d ds, encElems (v1 :: vs) ++ (93 :: rest) = d :: ds ∧
                isWs d = false ∧ d ≠ 93 := by
            obtain ⟨c0, cs0, hE0, hw0, -, h93⟩ := encJ_head hvOk
            refine ⟨c0, cs0 ++ ((if vs.isEmpty then [] else [44]) ++
              (encElems vs ++ (93 :: rest))), ?_, hw0, h93⟩
            rw [show encElems (v1 :: vs) = encJ v1 ++
              (if vs.isEmpty then [] else [44]) ++ encElems vs from rfl, hE0]
            simp [List.append_assoc]
          have hsz : sizeJL (v1 :: vs) < n := by
            have : sizeJ (.arr (v1 :: vs)) = sizeJL (v1 :: vs) + 1 := rfl
            omega
          rw [harg, readGo, skipWs_not 91 (encElems (v1 :: vs) ++ (93 :: rest)) rfl]
          simp only []
          norm_num
          rw [hdds, skipWs_not d ds hwd, skipByteS_cons_ne hd93]
          simp only []
          rw [← hdds]
          exact ihE [] (v1 :: vs) rest hokL hr hsz (by simp)
      | obj fs =>
        rcases fs with _ | ⟨⟨k, w⟩, ps⟩
        · have harg : encJ (.obj []) ++ rest = 123 :: 125 :: rest := rfl
          rw [harg, readGo, skipWs_not 123 (125 :: rest) rfl]
          simp only []
          norm_num
          rw [skipWs_not 125 rest rfl, skipByteS_cons_eq]
        · obtain ⟨hnd, hokF⟩ := JOkB_obj_iff.mp hok
          have harg : encJ (.obj ((k, w) :: ps)) ++ rest =
              123 :: (encMembers ((k, w) :: ps) ++ (125 :: rest)) := by
            rw [show encJ (.obj ((k, w) :: ps)) =
              [123] ++ encMembers ((k, w) :: ps) ++ [125] from rfl]
            simp [List.append_assoc]
          have hMhead : encMembers ((k, w) :: ps) ++ (125 :: rest) =
              34 :: (scrambleStr k ++ ([34, 58] ++ encJ w ++
                (if ps.isEmpty then [] else [44]) ++ encMembers ps ++
                (125 :: rest))) := by
            rw [encMembers]
            simp [List.append_assoc]
          have hsz : sizeJF ((k, w) :: ps) < n := by
            have : sizeJ (.obj ((k, w) :: ps)) = sizeJF ((k, w) :: ps) + 1 := rfl
            omega
          rw [harg, readGo,
            skipWs_not 123 (encMembers ((k, w) :: ps) ++ (125 :: rest)) rfl]
          simp only []
          norm_num
          rw [hMhead, skipWs_not 34 _ rfl, skipByteS_cons_ne (by omega), ← hMhead]

          simp only []
          have hB := ihM [] ((k, w) :: ps) rest hokF (by simpa using hnd) hr hsz
            (by simp)
          rw [hB]
          rw [List.nil_append]
    · intro m ps rest hokF hnd hr hsz hne
      rcases ps with _ | ⟨⟨k, w⟩, ps'⟩
      · exact absurd rfl hne
      · rw [JOkBF, Bool.and_eq_true] at hokF
        have hkfresh : k ∉ m.map Prod.fst := by
          rw [List.map_cons] at hnd
          obtain ⟨-, -, hdisj⟩ := List.nodup_append.mp hnd
          intro hk
          exact hdisj hk (by simp)
        rcases ps' with _ | ⟨⟨k2, w2⟩, ps2⟩
        · have harg : encMembers [(k, w)] ++ (125 :: rest) =
              34 :: (scrambleStr k ++ (34 :: (58 :: (encJ w ++ (125 :: rest))))) := by
            rw [encMembers]
            simp [encMembers, List.append_assoc]
          rw [harg, readGo]
          simp only []
          rw [skipWs_not 34 _ rfl]
          norm_num
          rw [parseString_rt k (58 :: (encJ w ++ (125 :: rest)))]
          simp only []
          rw [skipWs_not 58 _ rfl]
          rw [skipByteS_cons_eq]
          simp only []
          have hval := ihV w (125 :: rest) hokF.1 (Or.inr (Or.inr rfl))
            (by have := sizeJ_pos w; rw [sizeJF] at hsz; omega)
          rw [hval]
          simp only []
          rw [mapInsert_notmem m k w hkfresh, skipWs_not 125 rest rfl]
          rw [skipByteS_cons_eq]
          simp
        · have harg : encMembers ((k, w) :: (k2, w2) :: ps2) ++ (125 :: rest) =
              34 :: (scrambleStr k ++ (34 :: (58 :: (encJ w ++
                (44 :: (encMembers ((k2, w2) :: ps2) ++ (125 :: rest))))))) := by
            rw [encMembers]
            simp [List.append_assoc]
          rw [harg, readGo]
          simp only []
          rw [skipWs_not 34 _ rfl]
          norm_num
          rw [parseString_rt k (58 :: (encJ w ++
            (44 :: (encMembers ((k2, w2) :: ps2) ++ (125 :: rest)))))]
          simp only []
          rw [skipWs_not 58 _ rfl]
          rw [skipByteS_cons_eq]
          simp only []
          have hval := ihV w (44 :: (encMembers ((k2, w2) :: ps2) ++ (125 :: rest)))
            hokF.1 (Or.inl rfl)
            (by have := sizeGF_pos; have h2 := sizeJ_pos w
                rw [sizeJF] at hsz
                omega)
          rw [hval]
          simp only []
          rw [mapInsert_notmem m k w hkfresh, skipWs_not 44 _ rfl]
          rw [skipByteS_cons_ne (by omega), skipByteS_cons_eq]
          simp only []
          have hnd2 : ((m ++ [(k, w)]).map Prod.fst ++
              ((k2, w2) :: ps2).map Prod.fst).Nodup := by
            rw [List.map_append]
            simp only [List.map_cons, List.map_nil]
            rw [List.append_assoc, List.singleton_append]
            rw [List.map_cons] at hnd
            exact hnd
          have hsz2 : sizeJF ((k2, w2) :: ps2) < n := by
            have := sizeJ_pos w
            rw [sizeJF] at hsz
            omega
          have hB := ihM (m ++ [(k, w)]) ((k2, w2) :: ps2) rest hokF.2 hnd2 hr
            hsz2 (by simp)
          rw [hB]
          simp [List.append_assoc]
    · intro acc vs rest hokL hr hsz hne
      rcases vs with _ | ⟨v1, vs'⟩
      · exact absurd rfl hne
      · rw [JOkBL, Bool.and_eq_true] at hokL
        rcases vs' with _ | ⟨w, ws⟩
        · have harg : encElems [v1] ++ (93 :: rest) = encJ v1 ++ (93 :: rest) := by
            rw [encElems]
            simp [encElems]
          have hEmp : (encJ v1 ++ (93 :: rest)).isEmpty = false := by
            obtain ⟨d, ds, hE, -, -, -⟩ := encJ_head hokL.1
            rw [hE, List.cons_append]
            rfl
          rw [harg, readGo]
          simp only []
          rw [hEmp]
          norm_num
          have hval := ihV v1 (93 :: rest) hokL.1 (Or.inr (Or.inl rfl))
            (by have := sizeJ_pos v1; rw [sizeJL] at hsz; omega)
          rw [hval]
          simp only []
          rw [skipWs_not 93 rest rfl, skipByteS_cons_eq]
          simp
        · have harg : encElems (v1 :: w :: ws) ++ (93 :: rest) =
              encJ v1 ++ (44 :: (encElems (w :: ws) ++ (93 :: rest))) := by
            rw [encElems]
            simp [List.append_assoc]
          have hEmp : (encJ v1 ++ (44 :: (encElems (w :: ws) ++ (93 :: rest)))).isEmpty
              = false := by
            obtain ⟨d, ds, hE, -, -, -⟩ := encJ_head hokL.1
            rw [hE, List.cons_append]
            rfl
          have hwOk : JOkB w = true := by
            rw [JOkBL, Bool.and_eq_true] at hokL
            exact hokL.2.1
          have hws3 : skipWs (encElems (w :: ws) ++ (93 :: rest)) =
              encElems (w :: ws) ++ (93 :: rest) := by
            obtain ⟨d2, ds2, hE2, hw2, -, -⟩ := encJ_head hwOk
            have hcons : encElems (w :: ws) ++ (93 :: rest) =
                d2 :: (ds2 ++ ((if ws.isEmpty then [] else [44]) ++
                  (encElems ws ++ (93 :: rest)))) := by
              rw [show encElems (w :: ws) = encJ w ++
                (if ws.isEmpty then [] else [44]) ++ encElems ws from rfl, hE2]
              simp [List.append_assoc]
            rw [hcons, skipWs_not _ _ hw2]
          rw [harg, readGo]
          simp only []
          rw [hEmp]
          norm_num
          have hval := ihV v1 (44 :: (encElems (w :: ws) ++ (93 :: rest)))
            hokL.1 (Or.inl rfl)
            (by have := sizeJ_pos v1; rw [sizeJL] at hsz;
                have := sizeJ_pos w; omega)
          rw [hval]
          simp only []
          rw [skipWs_not 44 _ rfl]
          rw [skipByteS_cons_ne (by omega), skipByteS_cons_eq]
          simp only []
          rw [hws3]
          have hE2 := ihE (acc ++ [v1]) (w :: ws) rest hokL.2 hr
            (by have := sizeJ_pos v1; rw [sizeJL] at hsz; omega) (by simp)
          rw [hE2]
          simp [List.append_assoc]

theorem skipBOM_not {c : Nat} (cs : List Nat) (h : c ≠ 0xEF) :
    skipBOM (c :: cs) = c :: cs := by
  rw [skipBOM.eq_def]
  split
  next rest heq =>
    injection heq with h1 h2
    exact absurd h1 h
  next => rfl

theorem sizeJF_mem : ∀ {fs : List (List Nat × JValue)} {q : List Nat × JValue},
    q ∈ fs → sizeJ q.2 < sizeJF fs := by
  intro fs
  induction fs with
  | nil => intro q hq; simp at hq
  | cons p rest ih =>
    obtain ⟨k, v⟩ := p
    intro q hq
    rw [sizeJF]
    rcases List.mem_cons.mp hq with rfl | h2
    · show sizeJ v < sizeJ v + sizeJF rest + 1
      omega
    · have := ih h2
      omega

theorem mem_normJF : ∀ {fs : List (List Nat × JValue)} {p : List Nat × JValue},
    p ∈ normJF fs → ∃ q, q ∈ fs ∧ p = (q.1, normJ q.2) := by
  intro fs
  induction fs with
  | nil => intro p hp; simp [normJF] at hp
  | cons q0 rest ih =>
    obtain ⟨k, v⟩ := q0
    intro p hp
    rw [normJF] at hp
    rcases List.mem_cons.mp hp with rfl | hp2
    · exact ⟨(k, v), by simp, rfl⟩
    · obtain ⟨q, hq, he⟩ := ih hp2
      exact ⟨q, by simp [hq], he⟩

/-- Key normalization preserves round-trippability. -/
theorem JOkB_norm : ∀ n : Nat,
    (∀ v, sizeJ v ≤ n → JOkB v = true → JOkB (normJ v) = true) ∧
    (∀ vs, sizeJL vs ≤ n → JOkBL vs = true → JOkBL (normJL vs) = true) ∧
    (∀ ps, sizeJF ps ≤ n → JOkBF ps = true → JOkBF (normJF ps) = true) := by
  intro n
  induction n with
  | zero =>
    refine ⟨?_, ?_, ?_⟩
    · intro v hv _
      have := sizeJ_pos v
      omega
    · intro vs hvs hok
      rcases vs with _ | ⟨v, vs'⟩
      · exact hok
      · rw [sizeJL] at hvs
        have := sizeJ_pos v
        omega
    · intro ps hps hok
      rcases ps with _ | ⟨⟨k, v⟩, ps'⟩
      · exact hok
      · rw [sizeJF] at hps
        have := sizeJ_pos v
        omega
  | succ n ih =>
    obtain ⟨ihV, ihL, ihF⟩ := ih
    refine ⟨?_, ?_, ?_⟩
    · intro v hv hok
      cases v with
      | null => exact hok
      | bool b => exact hok
      | num q => exact hok
      | str s => exact hok
      | arr es =>
        rw [show normJ (.arr es) = .arr (normJL es) from rfl,
          show JOkB (.arr (normJL es)) = JOkBL (normJL es) from rfl]
        refine ihL es ?_ hok
        rw [show sizeJ (.arr es) = sizeJL es + 1 from rfl] at hv
        omega
      | obj fs =>
        obtain ⟨hnd, hokF⟩ := JOkB_obj_iff.mp hok
        have hsz : sizeJF fs ≤ n := by
          rw [show sizeJ (.obj fs) = sizeJF fs + 1 from rfl] at hv
          omega
        rw [show normJ (.obj fs) = .obj (sortPairsJ (normJF fs)) from rfl]
        apply JOkB_obj_iff.mpr
        constructor
        · have hp : ((sortPairsJ (normJF fs)).map Prod.fst).Perm
              (fs.map Prod.fst) := by
            have h1 := (sortPairsJ_perm (normJF fs)).map Prod.fst
            rw [normJF_keys] at h1
            exact h1
          exact hp.nodup_iff.mpr hnd
        · apply JOkBF_mem.mpr
          intro p hp
          have hp2 : p ∈ normJF fs :=
            (sortPairsJ_perm (normJF fs)).mem_iff.mp hp
          obtain ⟨q, hq, rfl⟩ := mem_normJF hp2
          have hszq : sizeJ q.2 ≤ n := by
            have := sizeJF_mem hq
            omega
          exact ihV q.2 hszq (JOkBF_mem.mp hokF q hq)
    · intro vs hvs hok
      rcases vs with _ | ⟨v, vs'⟩
      · exact hok
      · rw [sizeJL] at hvs
        rw [JOkBL, Bool.and_eq_true] at hok
        rw [show normJL (v :: vs') = normJ v :: normJL vs' from rfl, JOkBL,
          Bool.and_eq_true]
        have := sizeJ_pos v
        exact ⟨ihV v (by omega) hok.1, ihL vs' (by omega) hok.2⟩
    · intro ps hps hok
      rcases ps with _ | ⟨⟨k, v⟩, ps'⟩
      · exact hok
      · rw [sizeJF] at hps
        rw [JOkBF, Bool.and_eq_true] at hok
        rw [show normJF ((k, v) :: ps') = (k, normJ v) :: normJF ps' from rfl,
          JOkBF, Bool.and_eq_true]
        have := sizeJ_pos v
        exact ⟨ihV v (by omega) hok.1, ihF ps' (by omega) hok.2⟩

/-- Key normalization produces a value structurally equivalent to the
original (object fields only permuted). -/
theorem JEquiv_norm : ∀ n : Nat,
    (∀ v, sizeJ v ≤ n → JEquiv v (normJ v)) ∧
    (∀ vs, sizeJL vs ≤ n → JEquivL vs (normJL vs)) ∧
    (∀ ps, sizeJF ps ≤ n → JEquivF ps (normJF ps)) := by
  intro n
  induction n with
  | zero =>
    refine ⟨?_, ?_, ?_⟩
    · intro v hv
      have := sizeJ_pos v
      omega
    · intro vs hvs
      rcases vs with _ | ⟨v, vs'⟩
      · exact JEquivL.nil
      · rw [sizeJL] at hvs
        have := sizeJ_pos v
        omega
    · intro ps hps
      rcases ps with _ | ⟨⟨k, v⟩, ps'⟩
      · exact JEquivF.nil
      · rw [sizeJF] at hps
        have := sizeJ_pos v
        omega
  | succ n ih =>
    obtain ⟨ihV, ihL, ihF⟩ := ih
    refine ⟨?_, ?_, ?_⟩
    · intro v hv
      cases v with
      | null => exact JEquiv.null
      | bool b => exact JEquiv.bool b
      | num q => exact JEquiv.num q
      | str s => exact JEquiv.str s
      | arr es =>
        refine JEquiv.arr (ihL es ?_)
        rw [show sizeJ (.arr es) = sizeJL es + 1 from rfl] at hv
        omega
      | obj fs =>
        have hsz : sizeJF fs ≤ n := by
          rw [show sizeJ (.obj fs) = sizeJF fs + 1 from rfl] at hv
          omega
        have h2 : JEquivF (sortPairsJ fs) (normJF (sortPairsJ fs)) := by
          refine ihF (sortPairsJ fs) ?_
          rw [sizeJF_perm (sortPairsJ_perm fs)]
          exact hsz
        rw [show normJ (.obj fs) = .obj (sortPairsJ (normJF fs)) from rfl,
          normJF_sort]
        exact JEquiv.obj (sortPairsJ_perm fs).symm h2
    · intro vs hvs
      rcases vs with _ | ⟨v, vs'⟩
      · exact JEquivL.nil
      · rw [sizeJL] at hvs
        have := sizeJ_pos v
        exact JEquivL.cons (ihV v (by omega)) (ihL vs' (by omega))
    · intro ps hps
      rcases ps with _ | ⟨⟨k, v⟩, ps'⟩
      · exact JEquivF.nil
      · rw [sizeJF] at hps
        have := sizeJ_pos v
        exact JEquivF.cons (ihV v (by omega)) (ihF ps' (by omega))

/-- Claim C2 counterexample: the claim says two consecutive `\u` escapes
forming a valid high/low surrogate pair combine into one Unicode scalar and
that a lone half is re-emitted as an unpaired unit.  In the code each escape
is converted independently with Go's `string(rune)`, which replaces any
surrogate half by U+FFFD: decoding `"𝄞"` yields two replacement
characters (`EF BF BD EF BF BD`), not U+1D11E (`F0 9D 84 9E`), and the lone
`"\uD800"` yields `EF BF BD`, not an unpaired surrogate unit. -/
theorem claim_C2_counterexample :
    readValueDoc [34, 92, 117, 68, 56, 51, 52, 92, 117, 68, 68, 49, 69, 34] =
      .ok (.str [239, 191, 189, 239, 191, 189], []) ∧
    utf8Encode 0x1D11E = [240, 157, 132, 158] ∧
    [239, 191, 189, 239, 191, 189] ≠ [240, 157, 132, 158] ∧
    readValueDoc [34, 92, 117, 68, 56, 48, 48, 34] = .ok (.str [239, 191, 189], []) := by
  exact ⟨rfl, by decide, by decide, rfl⟩

/-- Claim C2 as amended: each `\u` escape decodes independently to a single
16-bit code unit; a unit in the surrogate range is accepted without error
but is emitted as U+FFFD (so two escapes forming a valid surrogate pair
produce two replacement characters rather than one combined scalar, and a
lone half produces one replacement character rather than an unpaired
unit). -/
theorem claim_C2_unicode_escapes
    (a1 a2 a3 a4 b1 b2 b3 b4 v1 v2 v3 v4 w1 w2 w3 w4 : Nat) (rest : List Nat)
    (ha1 : hexVal a1 = some v1) (ha2 : hexVal a2 = some v2)
    (ha3 : hexVal a3 = some v3) (ha4 : hexVal a4 = some v4)
    (hb1 : hexVal b1 = some w1) (hb2 : hexVal b2 = some w2)
    (hb3 : hexVal b3 = some w3) (hb4 : hexVal b4 = some w4) :
    parseString ([34, 92, 117, a1, a2, a3, a4, 34] ++ rest) =
      .ok (utf8Encode (((v1 * 16 + v2) * 16 + v3) * 16 + v4), rest) ∧
    parseString ([34, 92, 117, a1, a2, a3, a4, 92, 117, b1, b2, b3, b4, 34] ++ rest) =
      .ok (utf8Encode (((v1 * 16 + v2) * 16 + v3) * 16 + v4) ++
           utf8Encode (((w1 * 16 + w2) * 16 + w3) * 16 + w4), rest) ∧
    (∀ v : Nat, 0xD800 ≤ v → v < 0xE000 → utf8Encode v = [239, 191, 189]) := by
  refine ⟨?_, ?_, ?_⟩
  · simp [parseString, fastScan, slowPath, parseUnicode, ha1, ha2, ha3, ha4,
      slowPath_quote]
  · simp [parseString, fastScan, slowPath, parseUnicode, ha1, ha2, ha3, ha4,
      hb1, hb2, hb3, hb4, slowPath_quote]
  · intro v hv1 hv2
    rw [utf8Encode, if_neg (by omega), if_neg (by omega), if_pos (by omega)]

/-- Witness for the amended C2 at concrete escapes (`A` and
`B`). -/
theorem claim_C2_witness :
    parseString ([34, 92, 117, 48, 48, 52, 49, 34] ++ []) =
      .ok (utf8Encode (((0 * 16 + 0) * 16 + 4) * 16 + 1), []) ∧
    parseString
        ([34, 92, 117, 48, 48, 52, 49, 92, 117, 48, 48, 52, 50, 34] ++ []) =
      .ok (utf8Encode (((0 * 16 + 0) * 16 + 4) * 16 + 1) ++
           utf8Encode (((0 * 16 + 0) * 16 + 4) * 16 + 2), []) ∧
    (∀ v : Nat, 0xD800 ≤ v → v < 0xE000 → utf8Encode v = [239, 191, 189]) :=
  claim_C2_unicode_escapes 48 48 52 49 48 48 52 50 0 0 4 1 0 0 4 2 []
    (by decide) (by decide) (by decide) (by decide)
    (by decide) (by decide) (by decide) (by decide)

/-- Witness for C9 at a concrete latched decorator and operation list. -/
theorem claim_C9_witness :
    applyOps [DecOp.put [120] none, DecOp.fail (.sinkError 7)]
        { out := [97], err := some MErr.unsupportedFloat } =
      { out := [97], err := some MErr.unsupportedFloat } ∧
    (applyOps [DecOp.put [120] none, DecOp.fail (.sinkError 7)]
        { out := [], err := none }).err = some (.sinkError 7) := by
  exact ⟨claim_C9_error_latch.1 _ _ MErr.unsupportedFloat rfl,
    (claim_C9_error_latch.2 _ _ rfl).trans (by decide)⟩

/-- Claim C3: every literal accepted by the JSON number grammar is handed to
the modelled `strconv.ParseFloat` and never yields the generic
`ErrInvalidNumber`: `parseNumber` returns either a parsed 64-bit value with
the remaining input, or the distinct `ErrNumericValueOutOfRange`; the
overflowing literal `1e999` yields exactly that range error, and the
underflowing literal `1e-999` is accepted silently as zero. -/
theorem claim_C3_number_range (s rest : List Nat) (h : numGrammar s = some rest) :
    ((∃ q, parseNumber s = Except.ok (q, rest)) ∨
      parseNumber s = Except.error JErr.numericValueOutOfRange) ∧
    parseNumber [49, 101, 57, 57, 57] = Except.error JErr.numericValueOutOfRange ∧
    parseNumber [49, 101, 45, 57, 57, 57] = Except.ok (0, []) := by
  refine ⟨?_, by rfl, by rfl⟩
  obtain ⟨sgn, ip, fp, ep, hsplit, hshape⟩ := numGrammar_split h
  have hlen : s.length - rest.length = (sgn ++ ip ++ fp ++ ep).length := by
    rw [hsplit]; simp [List.length_append]; omega
  have htake : s.take (s.length - rest.length) = sgn ++ ip ++ fp ++ ep := by
    rw [hlen, hsplit]
    exact List.take_left _ _
  rcases hg : goParseFloat (sgn ++ ip ++ fp ++ ep) with _ | _ | q
  · exact absurd hg (goParseFloat_shape hshape)
  · right
    rw [parseNumber.eq_def, h]
    simp only []
    rw [htake, hg]
  · left
    refine ⟨q, ?_⟩
    rw [parseNumber.eq_def, h]
    simp only []
    rw [htake, hg]

/-- Claim C1 counterexample: the claim quantifies over all values built
from 64-bit floats, but `Marshal` formats floats with only 6 significant
digits by default.  `1234567` is exactly representable in binary64, its
encoding is the rounded literal `1.23457e+06`, and decoding that yields
`1234570` — a different 64-bit float value, not structurally equivalent. -/
theorem claim_C1_counterexample :
    isF64 ((1234567 : ℚ)) ∧
    Marshal (GoVal.floatV 1234567) [] =
      ([49, 46, 50, 51, 52, 53, 55, 101, 43, 48, 54], none) ∧
    (∃ q r, readValueDoc [49, 46, 50, 51, 52, 53, 55, 101, 43, 48, 54] =
      Except.ok (JValue.num q, r) ∧ q = 1234570 ∧ r = []) ∧
    (1234570 : ℚ) ≠ (1234567 : ℚ) ∧
    ¬ JEquiv (JValue.num 1234567) (JValue.num 1234570) := by
  refine ⟨by decide, by decide, ⟨_, _, rfl, by decide, rfl⟩, by decide, ?_⟩
  intro hEq
  cases hEq

/-- Amended claim C1: encode-then-decode reproduces a structurally
equivalent value (object key order may differ, nothing else) for every
value built from null, booleans, strings, arrays and distinct-key objects,
and those 64-bit float numbers that survive the default precision-6
formatting — i.e. whose formatted literal parses back to exactly the same
value (`JOkB`). -/
theorem claim_C1_roundtrip (v : JValue) (h : JOkB v = true) :
    ∃ w, readValueDoc ((Marshal (toGoVal v) []).1) = Except.ok (w, []) ∧
      JEquiv v w := by
  refine ⟨normJ v, ?_, (JEquiv_norm (sizeJ v)).1 v le_rfl⟩
  have hok : JOkB (normJ v) = true := (JOkB_norm (sizeJ v)).1 v le_rfl h
  obtain ⟨c, cs, hE, hw, hbom, -⟩ := encJ_head hok
  have hns : newScanner (encJ (normJ v)) = encJ (normJ v) := by
    rw [newScanner, hE, skipBOM_not cs hbom, skipWs_not c cs hw]
  have hA := (readGo_enc ((encJ (normJ v)).length + 1)).1 (normJ v) [] hok trivial
    (by have := sizeJ_le_enc hok; omega)
  rw [List.append_nil] at hA
  rw [Marshal_enc v]
  rw [readValueDoc, hns, readValue]
  exact hA

/-- Witness for the amended C1 at the object `{"b": 1, "a": true}` (keys
deliberately unsorted). -/
theorem claim_C1_witness :
    JOkB (JValue.obj [([98], JValue.num 1), ([97], JValue.bool true)]) = true ∧
    (∃ w, readValueDoc
        ((Marshal (toGoVal (JValue.obj [([98], JValue.num 1),
          ([97], JValue.bool true)])) []).1) = Except.ok (w, []) ∧
      JEquiv (JValue.obj [([98], JValue.num 1), ([97], JValue.bool true)]) w) :=
  ⟨by decide,
    claim_C1_roundtrip
      (JValue.obj [([98], JValue.num 1), ([97], JValue.bool true)]) (by decide)⟩

/-- Witness for C3 at the literal `1`. -/
theorem claim_C3_witness :
    numGrammar [49] = some [] ∧
    (((∃ q, parseNumber [49] = Except.ok (q, [])) ∨
        parseNumber [49] = Except.error JErr.numericValueOutOfRange) ∧
      parseNumber [49, 101, 57, 57, 57] = Except.error JErr.numericValueOutOfRange ∧
      parseNumber [49, 101, 45, 57, 57, 57] = Except.ok (0, [])) :=
  ⟨rfl, claim_C3_number_range [49] [] rfl⟩

end Jsn
